import Mathlib

/-!
# Huffman coding (`huffman.cpp`): embedding and verified properties

The functions of `huffman.cpp` are embedded as Lean functions that keep the
names of the source.  Reference parameters (`Queue<Bit>&`, `Map<..>&`,
`Vector<Bit>&`) become explicit state passing: a function returns the final
value of every reference it mutates.  A call of the library routine `error`
and a dereference of `nullptr` are results of type `Failure`.  Where C++ leaves
the behaviour of the source open (the evaluation order of the two constructor
arguments in `unflattenTree`), the embedding takes the choice as a parameter.

Types of the Stanford library that the source includes but that are not part
of the repository (`Bit`, `Queue`, `Vector`, `Map`, `PriorityQueue`,
`EncodingTreeNode`, `EncodedData`) are modelled separately below.
-/

namespace Huffman

/-! ## Library types -/

/-- Modelled from the spec: the `Bit` of `bits.h`, a value that is `0` or `1`. -/
abbrev Bit := Fin 2

/-- Modelled from the spec: the `EncodingTreeNode` of `treenode.h`.  A node is
either a leaf holding one character and no children, or an internal node
holding exactly two children, the `zero` branch and the `one` branch.  A value
of this type is a node that exists; a pointer that may be `nullptr` is an
`Option EncodingTreeNode`. -/
inductive EncodingTreeNode where
  | leaf (ch : Char) : EncodingTreeNode
  | node (zero one : EncodingTreeNode) : EncodingTreeNode
  deriving DecidableEq, Repr

namespace EncodingTreeNode

/-- The member function `isLeaf()`. -/
def isLeaf : EncodingTreeNode → Bool
  | leaf _ => true
  | node _ _ => false

/-- The field `zero` read as a pointer: `nullptr` at a leaf. -/
def zero? : EncodingTreeNode → Option EncodingTreeNode
  | leaf _ => none
  | node z _ => some z

/-- The field `one` read as a pointer: `nullptr` at a leaf. -/
def one? : EncodingTreeNode → Option EncodingTreeNode
  | leaf _ => none
  | node _ o => some o

end EncodingTreeNode

open EncodingTreeNode

/-- The ways a call can end without a result.  `error msg` is a call of the
library routine `error(msg)`, which throws; `nullDereference` is a member
access through `nullptr`; `uninitialized` is the return of a local pointer
that was never assigned; `outOfFuel` belongs to the embedding only (a
recursion bounded by a counter ran out) and is shown never to occur. -/
inductive Failure where
  | error (msg : String) : Failure
  | nullDereference : Failure
  | uninitialized : Failure
  | outOfFuel : Failure
  deriving DecidableEq, Repr

/-- Modelled from the spec: `Queue<T>::dequeue()` of `queue.h` removes and
returns the front element and calls `error` on an empty queue.  A queue is the
list of its elements, front first; `enqueue x` is `q ++ [x]`. -/
def Queue.dequeue {α : Type} : List α → Except Failure (α × List α)
  | [] => .error (.error "Queue::dequeue: Attempting to dequeue an empty queue")
  | x :: rest => .ok (x, rest)

/-- Modelled from the spec: the value of a C++ `char`.  A character of a text
is a byte, held as the `Char` of that code point; `char` is a signed 8-bit
integer (as compiled by g++ on x86-64), so the bytes 0x80..0xFF have the
values -128..-1 and come before the ASCII range.  A `Char` beyond a byte does
not occur in a C++ string; it keeps its code point. -/
def charValue (c : Char) : Int :=
  if 128 ≤ c.toNat ∧ c.toNat < 256 then (c.toNat : Int) - 256 else (c.toNat : Int)

/-- The comparison `a < b` of two C++ `char` values. -/
def charLt (a b : Char) : Prop := charValue a < charValue b

instance charLt.decidable (a b : Char) : Decidable (charLt a b) :=
  inferInstanceAs (Decidable (charValue a < charValue b))

/-- Modelled from the spec: `Map<char, V>` of `map.h`, an ordered map, held as
the list of its entries in increasing key order.  `put m k v` is the effect of
`m[k] = v`.  Keys are compared as C++ `char` values (`charLt`). -/
def Map.put {ν : Type} : List (Char × ν) → Char → ν → List (Char × ν)
  | [], k, v => [(k, v)]
  | (k', v') :: rest, k, v =>
    if charLt k k' then (k, v) :: (k', v') :: rest
    else if k = k' then (k, v) :: rest
    else (k', v') :: Map.put rest k v

/-- The entry of key `k`, if any. -/
def Map.find? {ν : Type} : List (Char × ν) → Char → Option ν
  | [], _ => none
  | (k', v') :: rest, k => if k = k' then some v' else Map.find? rest k

/-- Modelled from the spec: `containsKey`. -/
def Map.containsKey {ν : Type} (m : List (Char × ν)) (k : Char) : Bool :=
  (Map.find? m k).isSome

/-- Modelled from the spec: the value read by `m[k]`.  For a key that is absent
the library inserts a default-constructed value and returns it; the inserted
entry holds that same default, so later reads are unchanged and only the value
read is modelled. -/
def Map.get {ν : Type} [Inhabited ν] (m : List (Char × ν)) (k : Char) : ν :=
  (Map.find? m k).getD default

/-- Modelled from the spec: `keys()`, the keys in increasing order. -/
def Map.keys {ν : Type} (m : List (Char × ν)) : List Char :=
  m.map Prod.fst

/-- Modelled from the spec: `PriorityQueue<T>` of `priorityqueue.h`, held as the
list of its entries (value, priority) in dequeue order.  A lower priority is
dequeued first.  Among entries of equal priority the one enqueued last is
dequeued first: this is the tie-break under which the provided tests of the
repository hold (`buildHuffmanTree` and `compress` on "STREETTEST", where the
merged tree of 'R' and 'S' must leave the queue before the leaf of 'E').
Priorities are the
occurrence counts, modelled as natural numbers (an `int` count does not
overflow for a text shorter than 2^31 characters). -/
def PriorityQueue.enqueue {α : Type} : List (α × Nat) → α → Nat → List (α × Nat)
  | [], x, p => [(x, p)]
  | (y, q) :: rest, x, p =>
    if p ≤ q then (x, p) :: (y, q) :: rest
    else (y, q) :: PriorityQueue.enqueue rest x p

/-- Modelled from the spec: `peekPriority()`, the priority of the front entry;
`error` on an empty queue. -/
def PriorityQueue.peekPriority {α : Type} : List (α × Nat) → Except Failure Nat
  | [] => .error (.error "PriorityQueue::peekPriority: Attempting to peek at an empty queue")
  | (_, p) :: _ => .ok p

/-- Modelled from the spec: `dequeue()`, removes and returns the front value;
`error` on an empty queue. -/
def PriorityQueue.dequeue {α : Type} : List (α × Nat) → Except Failure (α × List (α × Nat))
  | [] => .error (.error "PriorityQueue::dequeue: Attempting to dequeue an empty queue")
  | (x, _) :: rest => .ok (x, rest)

/-- Modelled from the spec: `EncodedData` of `huffman.h`, the three queues of a
compressed message. -/
structure EncodedData where
  treeShape : List Bit
  treeLeaves : List Char
  messageBits : List Bit
  deriving DecidableEq, Repr

/-! ## `decodeText` -/

/-- One turn of the `while` loop of `decodeText` and the turns after it.
`treePtr` is the current node, `message` the text decoded so far.  The bit
`branch` is dequeued; `treePtr` moves to its `zero` or `one` field; the call
`treePtr->isLeaf()` then dereferences the new pointer. -/
def decodeTextLoop (tree : EncodingTreeNode) :
    EncodingTreeNode → List Bit → List Char → Except Failure (List Char)
  | _, [], message => .ok message
  | treePtr, branch :: messageBits, message =>
    let next : Option EncodingTreeNode :=
      if branch = 0 then treePtr.zero?
      else if branch = 1 then treePtr.one?
      else some treePtr
    match next with
    | none => .error .nullDereference
    | some (leaf ch) => decodeTextLoop tree tree messageBits (message ++ [ch])
    | some (node z o) => decodeTextLoop tree (node z o) messageBits message

/-- The function `decodeText(tree, messageBits)`. -/
def decodeText (tree : EncodingTreeNode) (messageBits : List Bit) : Except Failure (List Char) :=
  decodeTextLoop tree tree messageBits []

/-! ## `unflattenTree` and `decompress` -/

/-- The order in which the two arguments of the constructor call
`new EncodingTreeNode(unflattenTree(..), unflattenTree(..))` of `unflattenTree`
are evaluated.  Both arguments dequeue from the same two queues and C++ leaves
the order unspecified: `zeroFirst` evaluates the first argument (the `zero`
subtree) first, `oneFirst` the second (the `one` subtree), as g++ does. -/
inductive ArgOrder where
  | zeroFirst : ArgOrder
  | oneFirst : ArgOrder
  deriving DecidableEq, Repr

/-- The recursion of `unflattenTree`, bounded by `fuel` nested calls, under the
argument evaluation order `order`.  The result holds the tree and what is left
of the two queues.  In either order the first constructor argument becomes the
`zero` child and the second the `one` child. -/
def unflattenTreeAux (order : ArgOrder) : Nat → List Bit → List Char →
    Except Failure (EncodingTreeNode × List Bit × List Char)
  | 0, _, _ => .error .outOfFuel
  | fuel + 1, treeShape, treeLeaves => do
    let (branch, treeShape) ← Queue.dequeue treeShape
    if branch = 0 then
      let (ch, treeLeaves) ← Queue.dequeue treeLeaves
      pure (leaf ch, treeShape, treeLeaves)
    else
      match order with
      | .zeroFirst =>
        let (z, treeShape, treeLeaves) ← unflattenTreeAux order fuel treeShape treeLeaves
        let (o, treeShape, treeLeaves) ← unflattenTreeAux order fuel treeShape treeLeaves
        pure (node z o, treeShape, treeLeaves)
      | .oneFirst =>
        let (o, treeShape, treeLeaves) ← unflattenTreeAux order fuel treeShape treeLeaves
        let (z, treeShape, treeLeaves) ← unflattenTreeAux order fuel treeShape treeLeaves
        pure (node z o, treeShape, treeLeaves)

/-- The function `unflattenTree(treeShape, treeLeaves)` under the argument
evaluation order `order`: the tree, and the two queues as the call leaves
them.  Every nested call dequeues a bit first, so `treeShape.length + 1` nested
calls are never exceeded. -/
def unflattenTree (order : ArgOrder) (treeShape : List Bit) (treeLeaves : List Char) :
    Except Failure (EncodingTreeNode × List Bit × List Char) :=
  unflattenTreeAux order (treeShape.length + 1) treeShape treeLeaves

/-- The function `decompress(data)`, under the argument evaluation order of the
`unflattenTree` it calls. -/
def decompress (order : ArgOrder) (data : EncodedData) : Except Failure (List Char) := do
  let (tree, _, _) ← unflattenTree order data.treeShape data.treeLeaves
  decodeText tree data.messageBits

/-! ## `buildHuffmanTree` -/

/-- Step 1 of `buildHuffmanTree`: the loop that counts the occurrences of each
character of the text. -/
def countOccurrences : List Char → List (Char × Nat) → List (Char × Nat)
  | [], occurrences => occurrences
  | elem :: text, occurrences =>
    if ! Map.containsKey occurrences elem then
      countOccurrences text (Map.put occurrences elem 1)
    else
      countOccurrences text (Map.put occurrences elem (Map.get occurrences elem + 1))

/-- Step 2 of `buildHuffmanTree`: one leaf per key, enqueued with its number of
occurrences as priority. -/
def enqueueLeaves (occurrences : List (Char × Nat)) :
    List Char → List (EncodingTreeNode × Nat) → List (EncodingTreeNode × Nat)
  | [], pq => pq
  | key :: keys, pq =>
    enqueueLeaves occurrences keys (PriorityQueue.enqueue pq (leaf key) (Map.get occurrences key))

/-- Step 4 of `buildHuffmanTree`: the loop `while (PQ.size() > 1)`, bounded by
`fuel` turns.  `tree` is the local variable of that name, `none` while it is
not yet assigned.  The result is its final value. -/
def mergeLoop : Nat → List (EncodingTreeNode × Nat) → Option EncodingTreeNode →
    Except Failure (Option EncodingTreeNode)
  | 0, pq, tree => if pq.length > 1 then .error .outOfFuel else .ok tree
  | fuel + 1, pq, tree =>
    if pq.length > 1 then do
      let node1Priority ← PriorityQueue.peekPriority pq
      let (node1, pq) ← PriorityQueue.dequeue pq
      let node2Priority ← PriorityQueue.peekPriority pq
      let (node2, pq) ← PriorityQueue.dequeue pq
      let parent := node node1 node2
      mergeLoop fuel (PriorityQueue.enqueue pq parent (node1Priority + node2Priority)) (some parent)
    else .ok tree

/-- The function `buildHuffmanTree(text)`.  Every turn of the merge loop makes
the queue one entry shorter, so `PQ.size()` turns are never exceeded. -/
def buildHuffmanTree (text : List Char) : Except Failure EncodingTreeNode :=
  if text.length = 0 then .error (.error "no text available to encode")
  else
    let occurrences := countOccurrences text []
    let keys := Map.keys occurrences
    let pq := enqueueLeaves occurrences keys []
    if pq.length < 2 ∧ ¬ pq.isEmpty then
      .error (.error "not enough unique characters in text")
    else
      match mergeLoop pq.length pq none with
      | .error e => .error e
      | .ok none => .error .uninitialized
      | .ok (some tree) => .ok tree

/-! ## `sequenceMap` and `encodeText` -/

/-- The recursion of `sequenceMap` on a node that exists: the final values of
the two reference parameters `map` and `sequenceSoFar`. -/
def sequenceMapNode : EncodingTreeNode → List (Char × List Bit) → List Bit →
    List (Char × List Bit) × List Bit
  | leaf ch, map, sequenceSoFar => (Map.put map ch sequenceSoFar, sequenceSoFar)
  | node zero one, map, sequenceSoFar =>
    let sequenceSoFar := sequenceSoFar ++ [0]
    let (map, sequenceSoFar) := sequenceMapNode zero map sequenceSoFar
    let sequenceSoFar := sequenceSoFar.dropLast
    let sequenceSoFar := sequenceSoFar ++ [1]
    let (map, sequenceSoFar) := sequenceMapNode one map sequenceSoFar
    let sequenceSoFar := sequenceSoFar.dropLast
    (map, sequenceSoFar)

/-- The function `sequenceMap(tree, map, sequenceSoFar)`: the map it returns,
which is also the final value of the reference parameter `map`. -/
def sequenceMap (tree : Option EncodingTreeNode) (map : List (Char × List Bit))
    (sequenceSoFar : List Bit) : List (Char × List Bit) :=
  match tree with
  | none => map
  | some t => (sequenceMapNode t map sequenceSoFar).1

/-- The loop of `encodeText` over the characters of the text. -/
def encodeLoop (map : List (Char × List Bit)) : List Char → List Bit → List Bit
  | [], encoding => encoding
  | elem :: text, encoding => encodeLoop map text (encoding ++ Map.get map elem)

/-- The function `encodeText(tree, text)`. -/
def encodeText (tree : Option EncodingTreeNode) (text : List Char) : List Bit :=
  let map := sequenceMap tree [] []
  encodeLoop map text []

/-! ## `flattenTree`, `findLeaves`, `generateTreeShape`, `compress` -/

/-- The recursion of `flattenTree` on a node that exists: the final values of
the queues `treeShape` and `treeLeaves`. -/
def flattenTreeNode : EncodingTreeNode → List Bit → List Char → List Bit × List Char
  | leaf ch, treeShape, treeLeaves => (treeShape ++ [0], treeLeaves ++ [ch])
  | node zero one, treeShape, treeLeaves =>
    let treeShape := treeShape ++ [1]
    let (treeShape, treeLeaves) := flattenTreeNode zero treeShape treeLeaves
    flattenTreeNode one treeShape treeLeaves

/-- The function `flattenTree(tree, treeShape, treeLeaves)`. -/
def flattenTree (tree : Option EncodingTreeNode) (treeShape : List Bit) (treeLeaves : List Char) :
    List Bit × List Char :=
  match tree with
  | none => (treeShape, treeLeaves)
  | some t => flattenTreeNode t treeShape treeLeaves

/-- The recursion of `findLeaves` on a node that exists. -/
def findLeavesNode : EncodingTreeNode → List Char → List Char
  | leaf ch, leaves => leaves ++ [ch]
  | node zero one, leaves => findLeavesNode one (findLeavesNode zero leaves)

/-- The function `findLeaves(tree, leaves)`. -/
def findLeaves (tree : Option EncodingTreeNode) (leaves : List Char) : List Char :=
  match tree with
  | none => leaves
  | some t => findLeavesNode t leaves

/-- The recursion of `generateTreeShape` on a node that exists. -/
def generateTreeShapeNode : EncodingTreeNode → List Bit → List Bit
  | leaf _, bits => bits ++ [0]
  | node zero one, bits => generateTreeShapeNode one (generateTreeShapeNode zero (bits ++ [1]))

/-- The function `generateTreeShape(tree, bits)`. -/
def generateTreeShape (tree : Option EncodingTreeNode) (bits : List Bit) : List Bit :=
  match tree with
  | none => bits
  | some t => generateTreeShapeNode t bits

/-- The function `compress(messageText)`. -/
def compress (messageText : List Char) : Except Failure EncodedData := do
  let tree ← buildHuffmanTree messageText
  let encoding := encodeText (some tree) messageText
  let leaves := findLeaves (some tree) []
  let shapeBits := generateTreeShape (some tree) []
  pure { treeShape := shapeBits, messageBits := encoding, treeLeaves := leaves }

/-- The function `createExampleTree()`. -/
def createExampleTree : EncodingTreeNode :=
  let r := leaf 'R'
  let s := leaf 'S'
  let branch := node r s
  let e := leaf 'E'
  let branch := node branch e
  let t := leaf 'T'
  node t branch

/-! ## Notions used to state the properties -/

/-- The pre-order shape of a tree in the spec's words: `0` for a leaf; for an
internal node `1`, then the shape of the zero-branch, then that of the
one-branch. -/
def preorderShape : EncodingTreeNode → List Bit
  | leaf _ => [0]
  | node zero one => 1 :: (preorderShape zero ++ preorderShape one)

/-- The characters at the leaves of a tree, in pre-order (zero-branch first). -/
def leafChars : EncodingTreeNode → List Char
  | leaf ch => [ch]
  | node zero one => leafChars zero ++ leafChars one

/-- The mirror image of a tree: at every internal node the two branches are
exchanged. -/
def mirror : EncodingTreeNode → EncodingTreeNode
  | leaf ch => leaf ch
  | node zero one => node (mirror one) (mirror zero)

/-- The number of edges on the longest path from the root to a leaf. -/
def height : EncodingTreeNode → Nat
  | leaf _ => 0
  | node zero one => max (height zero) (height one) + 1

/-- The node reached from `t` by following a bit path (`0` = zero-branch,
`1` = one-branch); `none` when the path leaves the tree. -/
def walk : EncodingTreeNode → List Bit → Option EncodingTreeNode
  | t, [] => some t
  | leaf _, _ :: _ => none
  | node zero one, b :: path => if b = 0 then walk zero path else walk one path

/-- The code table in the spec's words: each leaf character with the bit path
from the root to its leaf, leaves in pre-order. -/
def codeTable : EncodingTreeNode → List (Char × List Bit)
  | leaf ch => [(ch, [])]
  | node zero one =>
    (codeTable zero).map (fun e => (e.1, (0 : Bit) :: e.2)) ++
    (codeTable one).map (fun e => (e.1, (1 : Bit) :: e.2))

/-- The number of distinct characters of a text. -/
def distinctCount (text : List Char) : Nat := text.dedup.length

/-- The total number of occurrences `w` gives to the leaf characters of a tree. -/
def weight (w : Char → Nat) : EncodingTreeNode → Nat
  | leaf ch => w ch
  | node zero one => weight w zero + weight w one

/-- The weighted path length of a tree: the sum over its leaves of `w` of the
leaf character times the depth of the leaf.  Every leaf below an internal node
is one step deeper than in the subtree, which adds the weight of the subtree. -/
def cost (w : Char → Nat) : EncodingTreeNode → Nat
  | leaf _ => 0
  | node zero one => cost w zero + cost w one + weight w zero + weight w one

/-- The tree `t` with every leaf holding `a` replaced by the tree `r`. -/
def substLeaf (a : Char) (r : EncodingTreeNode) : EncodingTreeNode → EncodingTreeNode
  | leaf ch => if ch = a then r else leaf ch
  | node zero one => node (substLeaf a r zero) (substLeaf a r one)

/-- The multisets of leaf depths of binary trees in which every internal node
has two children: a single leaf has depths `{0}`; an internal node has the
depths of its two subtrees, each increased by one. -/
inductive Realisable : Multiset Nat → Prop
  | leaf : Realisable {0}
  | node (s t : Multiset Nat) : Realisable s → Realisable t →
      Realisable ((s + t).map (· + 1))

/-- The length of the code of `c` in the code table of `tree`. -/
def codeLength (tree : EncodingTreeNode) (c : Char) : Nat :=
  (Map.get (sequenceMap (some tree) [] []) c).length

/-- The total encoded length in the spec's words: the sum over the distinct
characters of the text of (number of occurrences × length of the character's
code in the tree). -/
def encodedLength (text : List Char) (tree : EncodingTreeNode) : Nat :=
  (text.dedup.map (fun c => text.count c * codeLength tree c)).sum

/-- The pair of queues begins with the serialisation of a complete tree: the
traversal of `unflattenTree` can be completed before either queue runs out. -/
def BeginsWithTree (treeShape : List Bit) (treeLeaves : List Char) : Prop :=
  ∃ (t : EncodingTreeNode) (s : List Bit) (l : List Char),
    treeShape = preorderShape t ++ s ∧ treeLeaves = leafChars t ++ l

/-- The bit sequence is a concatenation of complete root-to-leaf paths of `t`. -/
def IsCodeSequence (t : EncodingTreeNode) (bits : List Bit) : Prop :=
  ∃ paths : List (List Bit), bits = paths.flatten ∧ ∀ p ∈ paths, ∃ c, walk t p = some (leaf c)

/-! ## Tree codec: `flattenTree` and `unflattenTree` -/

theorem flattenTreeNode_eq (t : EncodingTreeNode) (treeShape : List Bit) (treeLeaves : List Char) :
    flattenTreeNode t treeShape treeLeaves =
      (treeShape ++ preorderShape t, treeLeaves ++ leafChars t) := by
  induction t generalizing treeShape treeLeaves with
  | leaf ch => rfl
  | node z o ihz iho =>
    simp only [flattenTreeNode, ihz, iho, preorderShape, leafChars, List.append_assoc,
      List.singleton_append, List.cons_append, List.nil_append]

theorem flattenTree_some_nil (t : EncodingTreeNode) :
    flattenTree (some t) [] [] = (preorderShape t, leafChars t) := by
  simp [flattenTree, flattenTreeNode_eq]

theorem findLeavesNode_eq (t : EncodingTreeNode) (leaves : List Char) :
    findLeavesNode t leaves = leaves ++ leafChars t := by
  induction t generalizing leaves with
  | leaf ch => rfl
  | node z o ihz iho => simp only [findLeavesNode, ihz, iho, leafChars, List.append_assoc]

theorem generateTreeShapeNode_eq (t : EncodingTreeNode) (bits : List Bit) :
    generateTreeShapeNode t bits = bits ++ preorderShape t := by
  induction t generalizing bits with
  | leaf ch => rfl
  | node z o ihz iho =>
    simp only [generateTreeShapeNode, ihz, iho, preorderShape, List.append_assoc,
      List.singleton_append, List.cons_append, List.nil_append]

theorem height_lt_length_preorderShape (t : EncodingTreeNode) :
    height t < (preorderShape t).length := by
  induction t with
  | leaf ch => simp [height, preorderShape]
  | node z o ihz iho =>
    simp only [height, preorderShape, List.length_cons, List.length_append]
    omega

/-- With more fuel than the height of `t`, reading the serialisation of `t`
followed by anything returns `t` and leaves what follows. -/
theorem unflattenTreeAux_flatten (t : EncodingTreeNode) (fuel : Nat) (hf : height t < fuel)
    (s : List Bit) (l : List Char) :
    unflattenTreeAux .zeroFirst fuel (preorderShape t ++ s) (leafChars t ++ l) = .ok (t, s, l) := by
  induction t generalizing fuel s l with
  | leaf ch =>
    cases fuel with
    | zero => omega
    | succ n => rfl
  | node z o ihz iho =>
    cases fuel with
    | zero => omega
    | succ n =>
      have hz : height z < n := by simp only [height] at hf; omega
      have ho : height o < n := by simp only [height] at hf; omega
      have e1 := ihz n hz (preorderShape o ++ s) (leafChars o ++ l)
      have e2 := iho n ho s l
      simp only [preorderShape, leafChars, List.cons_append, List.append_assoc]
      simp only [unflattenTreeAux, Queue.dequeue, bind, Except.bind, pure, Except.pure]
      rw [if_neg (by decide)]
      simp only [e1, e2]

theorem unflattenTree_flatten (t : EncodingTreeNode) (s : List Bit) (l : List Char) :
    unflattenTree .zeroFirst (preorderShape t ++ s) (leafChars t ++ l) = .ok (t, s, l) := by
  apply unflattenTreeAux_flatten
  have := height_lt_length_preorderShape t
  simp only [List.length_append]
  omega

/-! ## The ordered map -/

theorem charValue_injective (a b : Char) (h : charValue a = charValue b) : a = b := by
  have hn : a.toNat = b.toNat := by
    simp only [charValue] at h
    split_ifs at h <;> omega
  apply Char.eq_of_val_eq
  apply UInt32.ext
  exact hn

theorem charLt_trans {a b c : Char} (h₁ : charLt a b) (h₂ : charLt b c) : charLt a c :=
  lt_trans h₁ h₂

theorem charLt_ne {a b : Char} (h : charLt a b) : a ≠ b := by
  rintro rfl
  exact lt_irrefl _ h

theorem charLt_of_not_charLt {a b : Char} (h : ¬ charLt a b) (hne : a ≠ b) : charLt b a := by
  rcases lt_trichotomy (charValue a) (charValue b) with h1 | h1 | h1
  · exact absurd h1 h
  · exact absurd (charValue_injective a b h1) hne
  · exact h1

theorem Map.find?_put {ν : Type} (m : List (Char × ν)) (k : Char) (v : ν) (c : Char) :
    Map.find? (Map.put m k v) c = if c = k then some v else Map.find? m c := by
  induction m with
  | nil => simp [Map.put, Map.find?]
  | cons e rest ih =>
    obtain ⟨k', v'⟩ := e
    simp only [Map.put]
    by_cases hc : c = k
    · subst hc
      by_cases h1 : charLt c k'
      · simp [h1, Map.find?]
      · by_cases h2 : c = k'
        · subst h2
          simp [h1, Map.find?]
        · simp [h1, h2, Map.find?, ih]
    · by_cases h1 : charLt k k'
      · simp [h1, Map.find?, hc]
      · by_cases h2 : k = k'
        · subst h2
          simp [h1, Map.find?, hc]
        · simp [h1, h2, Map.find?, ih, hc]

theorem Map.mem_keys_iff {ν : Type} (m : List (Char × ν)) (c : Char) :
    c ∈ Map.keys m ↔ (Map.find? m c).isSome = true := by
  induction m with
  | nil => simp [Map.keys, Map.find?]
  | cons e rest ih =>
    obtain ⟨k', v'⟩ := e
    simp only [Map.keys, List.map_cons, List.mem_cons, Map.find?] at ih ⊢
    by_cases h : c = k'
    · simp [h]
    · simp [h, ih]

theorem Map.mem_keys_put {ν : Type} (m : List (Char × ν)) (k : Char) (v : ν) (c : Char) :
    c ∈ Map.keys (Map.put m k v) ↔ c = k ∨ c ∈ Map.keys m := by
  rw [Map.mem_keys_iff, Map.mem_keys_iff, Map.find?_put]
  by_cases h : c = k
  · simp [h]
  · simp [h]

theorem Map.keys_put_sorted {ν : Type} (m : List (Char × ν)) (k : Char) (v : ν)
    (hm : (Map.keys m).Pairwise charLt) : (Map.keys (Map.put m k v)).Pairwise charLt := by
  induction m with
  | nil => simp [Map.put, Map.keys]
  | cons e rest ih =>
    obtain ⟨k', v'⟩ := e
    have hm' : (k' :: Map.keys rest).Pairwise charLt := hm
    rw [List.pairwise_cons] at hm'
    simp only [Map.put]
    split_ifs with h1 h2
    · show (k :: k' :: Map.keys rest).Pairwise charLt
      rw [List.pairwise_cons]
      refine ⟨fun c hc => ?_, hm⟩
      rcases List.mem_cons.1 hc with rfl | hc
      · exact h1
      · exact charLt_trans h1 (hm'.1 c hc)
    · subst h2
      exact hm
    · show (k' :: Map.keys (Map.put rest k v)).Pairwise charLt
      rw [List.pairwise_cons]
      refine ⟨fun c hc => ?_, ih hm'.2⟩
      rcases (Map.mem_keys_put rest k v c).1 hc with rfl | hc
      · exact charLt_of_not_charLt h1 h2
      · exact hm'.1 c hc

theorem nodup_of_sorted_keys (l : List Char) (h : l.Pairwise charLt) : l.Nodup :=
  h.imp (fun hab => charLt_ne hab)

/-! ## Code table: `sequenceMap` -/

theorem keys_codeTable (t : EncodingTreeNode) : (codeTable t).map Prod.fst = leafChars t := by
  induction t with
  | leaf ch => rfl
  | node z o ihz iho =>
    simp only [codeTable, leafChars, List.map_append, List.map_map, ← ihz, ← iho]
    rfl

theorem walk_of_mem_codeTable (t : EncodingTreeNode) (c : Char) (p : List Bit)
    (h : (c, p) ∈ codeTable t) : walk t p = some (leaf c) := by
  induction t generalizing p with
  | leaf ch =>
    simp only [codeTable, List.mem_singleton, Prod.mk.injEq] at h
    obtain ⟨rfl, rfl⟩ := h
    rfl
  | node z o ihz iho =>
    simp only [codeTable, List.mem_append, List.mem_map, Prod.mk.injEq] at h
    rcases h with ⟨e, he, rfl, rfl⟩ | ⟨e, he, rfl, rfl⟩
    · simpa [walk] using ihz e.2 he
    · simpa [walk] using iho e.2 he

theorem exists_mem_codeTable (t : EncodingTreeNode) (c : Char) (h : c ∈ leafChars t) :
    ∃ p, (c, p) ∈ codeTable t := by
  rw [← keys_codeTable] at h
  obtain ⟨e, he, rfl⟩ := List.mem_map.1 h
  exact ⟨e.2, he⟩

/-- The map after `sequenceMap` has visited `t` with path prefix `s`: every code
of `t`, prefixed by `s`, has been stored, in pre-order; `sequenceSoFar` is
restored. -/
theorem sequenceMapNode_eq (t : EncodingTreeNode) (m : List (Char × List Bit)) (s : List Bit) :
    sequenceMapNode t m s =
      ((codeTable t).foldl (fun m e => Map.put m e.1 (s ++ e.2)) m, s) := by
  induction t generalizing m s with
  | leaf ch => simp [sequenceMapNode, codeTable]
  | node z o ihz iho =>
    simp only [sequenceMapNode, ihz, iho, codeTable, List.dropLast_concat, List.foldl_append,
      List.foldl_map, List.append_assoc, List.singleton_append]

theorem find?_foldl_put_of_not_mem (l : List (Char × List Bit)) (m : List (Char × List Bit))
    (s : List Bit) (c : Char) (h : c ∉ l.map Prod.fst) :
    Map.find? (l.foldl (fun m e => Map.put m e.1 (s ++ e.2)) m) c = Map.find? m c := by
  induction l generalizing m with
  | nil => rfl
  | cons e l ih =>
    simp only [List.map_cons, List.mem_cons, not_or] at h
    simp only [List.foldl_cons]
    rw [ih _ h.2, Map.find?_put, if_neg h.1]

theorem find?_foldl_put_of_mem (l : List (Char × List Bit)) (m : List (Char × List Bit))
    (s : List Bit) (c : Char) (p : List Bit) (hn : (l.map Prod.fst).Nodup) (h : (c, p) ∈ l) :
    Map.find? (l.foldl (fun m e => Map.put m e.1 (s ++ e.2)) m) c = some (s ++ p) := by
  induction l generalizing m with
  | nil => simp at h
  | cons e l ih =>
    simp only [List.map_cons, List.nodup_cons] at hn
    simp only [List.foldl_cons]
    rcases List.mem_cons.1 h with rfl | h
    · rw [find?_foldl_put_of_not_mem _ _ _ _ hn.1, Map.find?_put, if_pos rfl]
    · exact ih _ hn.2 h

theorem keys_foldl_put_sorted (l : List (Char × List Bit)) (m : List (Char × List Bit))
    (s : List Bit) (hm : (Map.keys m).Pairwise charLt) :
    (Map.keys (l.foldl (fun m e => Map.put m e.1 (s ++ e.2)) m)).Pairwise charLt := by
  induction l generalizing m with
  | nil => exact hm
  | cons e l ih => exact ih _ (Map.keys_put_sorted m e.1 _ hm)

theorem mem_keys_foldl_put (l : List (Char × List Bit)) (m : List (Char × List Bit))
    (s : List Bit) (c : Char) :
    c ∈ Map.keys (l.foldl (fun m e => Map.put m e.1 (s ++ e.2)) m) ↔
      c ∈ l.map Prod.fst ∨ c ∈ Map.keys m := by
  induction l generalizing m with
  | nil => simp
  | cons e l ih =>
    simp only [List.foldl_cons, ih, Map.mem_keys_put, List.map_cons, List.mem_cons]
    tauto

theorem sequenceMap_some (t : EncodingTreeNode) :
    sequenceMap (some t) [] [] =
      (codeTable t).foldl (fun m e => Map.put m e.1 ([] ++ e.2)) [] := by
  simp only [sequenceMap, sequenceMapNode_eq]

/-- The code table of a tree with pairwise distinct leaf characters holds, for
each entry `(c, p)` of the pre-order table, the path `p` under the key `c`. -/
theorem find?_sequenceMap (t : EncodingTreeNode) (hn : (leafChars t).Nodup) (c : Char)
    (p : List Bit) (h : (c, p) ∈ codeTable t) :
    Map.find? (sequenceMap (some t) [] []) c = some p := by
  rw [sequenceMap_some]
  have := find?_foldl_put_of_mem (codeTable t) [] [] c p (by rw [keys_codeTable]; exact hn) h
  simpa using this

theorem find?_sequenceMap_of_not_mem (t : EncodingTreeNode) (c : Char) (h : c ∉ leafChars t) :
    Map.find? (sequenceMap (some t) [] []) c = none := by
  rw [sequenceMap_some]
  have := find?_foldl_put_of_not_mem (codeTable t) [] [] c (by rw [keys_codeTable]; exact h)
  simpa [Map.find?] using this

theorem mem_keys_sequenceMap (t : EncodingTreeNode) (c : Char) :
    c ∈ Map.keys (sequenceMap (some t) [] []) ↔ c ∈ leafChars t := by
  rw [sequenceMap_some, mem_keys_foldl_put, keys_codeTable]
  simp [Map.keys]

theorem keys_sequenceMap_perm (t : EncodingTreeNode) (hn : (leafChars t).Nodup) :
    (Map.keys (sequenceMap (some t) [] [])).Perm (leafChars t) := by
  rw [List.perm_ext_iff_of_nodup _ hn]
  · exact mem_keys_sequenceMap t
  · rw [sequenceMap_some]
    exact nodup_of_sorted_keys _ (keys_foldl_put_sorted _ _ _ (by simp [Map.keys]))

/-! ## Text codec: `encodeText` and `decodeText` -/

theorem bit_eq_one_of_ne_zero : ∀ b : Bit, b ≠ 0 → b = 1 := by decide

theorem encodeLoop_eq (map : List (Char × List Bit)) (text : List Char) (encoding : List Bit) :
    encodeLoop map text encoding = encoding ++ (text.map (Map.get map)).flatten := by
  induction text generalizing encoding with
  | nil => simp [encodeLoop]
  | cons c text ih => simp [encodeLoop, ih]

theorem encodeText_eq (tree : Option EncodingTreeNode) (text : List Char) :
    encodeText tree text = (text.map (Map.get (sequenceMap tree [] []))).flatten := by
  simp [encodeText, encodeLoop_eq]

theorem walk_leaf_eq (ch c : Char) (p : List Bit) (h : walk (leaf ch) p = some (leaf c)) :
    p = [] ∧ ch = c := by
  cases p with
  | nil =>
    simp only [walk, Option.some.injEq, leaf.injEq] at h
    exact ⟨rfl, h⟩
  | cons b p => simp [walk] at h

/-- Decoding one complete code: from an internal node `n`, following a path that
ends at the leaf of `c` appends `c` and resets the current node to the root. -/
theorem decodeTextLoop_path (tree : EncodingTreeNode) (p : List Bit) (n : EncodingTreeNode)
    (c : Char) (hn : n.isLeaf = false) (hw : walk n p = some (leaf c)) (rest : List Bit)
    (message : List Char) :
    decodeTextLoop tree n (p ++ rest) message = decodeTextLoop tree tree rest (message ++ [c]) := by
  induction p generalizing n with
  | nil =>
    simp only [walk, Option.some.injEq] at hw
    subst hw
    simp [isLeaf] at hn
  | cons b p ih =>
    cases n with
    | leaf ch => simp [isLeaf] at hn
    | node z o =>
      by_cases hb : b = 0
      · subst hb
        simp only [walk, if_true] at hw
        cases z with
        | leaf ch =>
          obtain ⟨rfl, rfl⟩ := walk_leaf_eq ch c p hw
          simp [decodeTextLoop, zero?]
        | node z1 z2 =>
          have := ih (node z1 z2) rfl hw
          simpa [decodeTextLoop, zero?] using this
      · have hb1 : b = 1 := bit_eq_one_of_ne_zero b hb
        subst hb1
        simp only [walk, if_neg hb] at hw
        cases o with
        | leaf ch =>
          obtain ⟨rfl, rfl⟩ := walk_leaf_eq ch c p hw
          simp [decodeTextLoop, one?]
        | node o1 o2 =>
          have := ih (node o1 o2) rfl hw
          simpa [decodeTextLoop, one?] using this

/-- Decoding a concatenation of complete codes of a tree with an internal root. -/
theorem decodeTextLoop_codes (tree : EncodingTreeNode) (hroot : tree.isLeaf = false)
    (code : Char → List Bit) (text : List Char)
    (hcode : ∀ c ∈ text, walk tree (code c) = some (leaf c)) (rest : List Bit)
    (message : List Char) :
    decodeTextLoop tree tree ((text.map code).flatten ++ rest) message =
      decodeTextLoop tree tree rest (message ++ text) := by
  induction text generalizing message with
  | nil => simp
  | cons c text ih =>
    have h1 := hcode c (List.mem_cons_self c text)
    have h2 : ∀ c' ∈ text, walk tree (code c') = some (leaf c') :=
      fun c' hc' => hcode c' (List.mem_cons_of_mem c hc')
    simp only [List.map_cons, List.flatten_cons, List.append_assoc]
    rw [decodeTextLoop_path tree (code c) tree c hroot h1, ih h2]
    simp

theorem walk_get_sequenceMap (t : EncodingTreeNode) (hn : (leafChars t).Nodup) (c : Char)
    (hc : c ∈ leafChars t) :
    walk t (Map.get (sequenceMap (some t) [] []) c) = some (leaf c) := by
  obtain ⟨p, hp⟩ := exists_mem_codeTable t c hc
  simp only [Map.get, find?_sequenceMap t hn c p hp, Option.getD_some]
  exact walk_of_mem_codeTable t c p hp

theorem decodeText_encodeText_append (t : EncodingTreeNode) (hroot : t.isLeaf = false)
    (hn : (leafChars t).Nodup) (text : List Char) (hc : ∀ c ∈ text, c ∈ leafChars t)
    (rest : List Bit) :
    decodeText t (encodeText (some t) text ++ rest) = decodeTextLoop t t rest text := by
  rw [decodeText, encodeText_eq,
    decodeTextLoop_codes t hroot _ text (fun c h => walk_get_sequenceMap t hn c (hc c h))]
  simp

theorem decodeText_encodeText_eq (t : EncodingTreeNode) (hroot : t.isLeaf = false)
    (hn : (leafChars t).Nodup) (text : List Char) (hc : ∀ c ∈ text, c ∈ leafChars t) :
    decodeText t (encodeText (some t) text) = .ok text := by
  have := decodeText_encodeText_append t hroot hn text hc []
  simpa [decodeTextLoop] using this

/-! ## The priority queue -/

theorem PriorityQueue.enqueue_perm {α : Type} (pq : List (α × Nat)) (x : α) (p : Nat) :
    (PriorityQueue.enqueue pq x p).Perm ((x, p) :: pq) := by
  induction pq with
  | nil => exact List.Perm.refl _
  | cons e rest ih =>
    obtain ⟨y, q⟩ := e
    simp only [PriorityQueue.enqueue]
    split_ifs with h
    · exact List.Perm.refl _
    · exact (List.Perm.cons _ ih).trans (List.Perm.swap _ _ _)

theorem PriorityQueue.enqueue_length {α : Type} (pq : List (α × Nat)) (x : α) (p : Nat) :
    (PriorityQueue.enqueue pq x p).length = pq.length + 1 := by
  simpa using (PriorityQueue.enqueue_perm pq x p).length_eq

theorem PriorityQueue.enqueue_sorted {α : Type} (pq : List (α × Nat)) (x : α) (p : Nat)
    (h : pq.Pairwise (fun a b => a.2 ≤ b.2)) :
    (PriorityQueue.enqueue pq x p).Pairwise (fun a b => a.2 ≤ b.2) := by
  induction pq with
  | nil => simp [PriorityQueue.enqueue]
  | cons e rest ih =>
    obtain ⟨y, q⟩ := e
    have h' := List.pairwise_cons.1 h
    simp only [PriorityQueue.enqueue]
    split_ifs with hpq
    · refine List.pairwise_cons.2 ⟨fun e he => ?_, h⟩
      rcases List.mem_cons.1 he with rfl | he
      · exact hpq
      · exact le_trans hpq (h'.1 e he)
    · refine List.pairwise_cons.2 ⟨fun e he => ?_, ih h'.2⟩
      rcases List.mem_cons.1 ((PriorityQueue.enqueue_perm rest x p).subset he) with rfl | he
      · exact Nat.le_of_lt (Nat.lt_of_not_le hpq)
      · exact h'.1 e he

/-! ## Tree builder: `buildHuffmanTree` -/

theorem countOccurrences_cons (elem : Char) (text : List Char) (occurrences : List (Char × Nat)) :
    countOccurrences (elem :: text) occurrences =
      countOccurrences text (Map.put occurrences elem (Map.get occurrences elem + 1)) := by
  simp only [countOccurrences]
  split_ifs with h
  · have h0 : Map.get occurrences elem = 0 := by
      simp only [Map.containsKey] at h
      cases hf : Map.find? occurrences elem with
      | none => simp [Map.get, hf]
      | some v => simp [hf] at h
    rw [h0]
  · rfl

theorem Map.get_put {ν : Type} [Inhabited ν] (m : List (Char × ν)) (k : Char) (v : ν) (c : Char) :
    Map.get (Map.put m k v) c = if c = k then v else Map.get m c := by
  simp only [Map.get, Map.find?_put]
  split_ifs <;> rfl

/-- The count that step 1 stores for a character is the number of its
occurrences in the text (added to what the map held before). -/
theorem get_countOccurrences (text : List Char) (occurrences : List (Char × Nat)) (c : Char) :
    Map.get (countOccurrences text occurrences) c = Map.get occurrences c + text.count c := by
  induction text generalizing occurrences with
  | nil => simp [countOccurrences]
  | cons e text ih =>
    rw [countOccurrences_cons, ih, Map.get_put, List.count_cons]
    by_cases h : c = e
    · subst h
      simp
      omega
    · have h' : ¬ (e == c) = true := by simpa using Ne.symm h
      simp [h, h']

theorem mem_keys_countOccurrences (text : List Char) (occurrences : List (Char × Nat)) (c : Char) :
    c ∈ Map.keys (countOccurrences text occurrences) ↔ c ∈ text ∨ c ∈ Map.keys occurrences := by
  induction text generalizing occurrences with
  | nil => simp [countOccurrences]
  | cons e text ih =>
    rw [countOccurrences_cons, ih, Map.mem_keys_put, List.mem_cons]
    tauto

theorem keys_countOccurrences_sorted (text : List Char) (occurrences : List (Char × Nat))
    (h : (Map.keys occurrences).Pairwise charLt) :
    (Map.keys (countOccurrences text occurrences)).Pairwise charLt := by
  induction text generalizing occurrences with
  | nil => exact h
  | cons e text ih =>
    rw [countOccurrences_cons]
    exact ih _ (Map.keys_put_sorted _ _ _ h)

theorem keys_countOccurrences_nodup (text : List Char) :
    (Map.keys (countOccurrences text [])).Nodup :=
  nodup_of_sorted_keys _ (keys_countOccurrences_sorted text [] (by simp [Map.keys]))

theorem mem_keys_countOccurrences_nil (text : List Char) (c : Char) :
    c ∈ Map.keys (countOccurrences text []) ↔ c ∈ text := by
  rw [mem_keys_countOccurrences]
  simp [Map.keys]

theorem keys_countOccurrences_perm (text : List Char) :
    (Map.keys (countOccurrences text [])).Perm text.dedup := by
  rw [List.perm_ext_iff_of_nodup (keys_countOccurrences_nodup text) (List.nodup_dedup text)]
  intro c
  rw [mem_keys_countOccurrences_nil, List.mem_dedup]

theorem length_keys_countOccurrences (text : List Char) :
    (Map.keys (countOccurrences text [])).length = distinctCount text :=
  (keys_countOccurrences_perm text).length_eq

theorem enqueueLeaves_perm (occurrences : List (Char × Nat)) (keys : List Char)
    (pq : List (EncodingTreeNode × Nat)) :
    (enqueueLeaves occurrences keys pq).Perm
      (keys.map (fun key => (leaf key, Map.get occurrences key)) ++ pq) := by
  induction keys generalizing pq with
  | nil => exact List.Perm.refl _
  | cons k keys ih =>
    simp only [enqueueLeaves, List.map_cons, List.cons_append]
    refine (ih _).trans ?_
    refine (List.Perm.append_left _ (PriorityQueue.enqueue_perm pq _ _)).trans ?_
    exact List.perm_middle

theorem enqueueLeaves_sorted (occurrences : List (Char × Nat)) (keys : List Char)
    (pq : List (EncodingTreeNode × Nat)) (h : pq.Pairwise (fun a b => a.2 ≤ b.2)) :
    (enqueueLeaves occurrences keys pq).Pairwise (fun a b => a.2 ≤ b.2) := by
  induction keys generalizing pq with
  | nil => exact h
  | cons k keys ih => exact ih _ (PriorityQueue.enqueue_sorted _ _ _ h)

theorem length_enqueueLeaves (occurrences : List (Char × Nat)) (keys : List Char) :
    (enqueueLeaves occurrences keys []).length = keys.length := by
  simpa using (enqueueLeaves_perm occurrences keys []).length_eq

theorem mergeLoop_of_length_le_one (fuel : Nat) (pq : List (EncodingTreeNode × Nat))
    (tree : Option EncodingTreeNode) (h : pq.length ≤ 1) :
    mergeLoop fuel pq tree = .ok tree := by
  cases fuel with
  | zero => simp [mergeLoop, Nat.not_lt.2 h]
  | succ n => simp [mergeLoop, Nat.not_lt.2 h]

theorem mergeLoop_cons_cons (fuel : Nat) (a b : EncodingTreeNode) (pa pb : Nat)
    (rest : List (EncodingTreeNode × Nat)) (tree : Option EncodingTreeNode) :
    mergeLoop (fuel + 1) ((a, pa) :: (b, pb) :: rest) tree =
      mergeLoop fuel (PriorityQueue.enqueue rest (node a b) (pa + pb)) (some (node a b)) := by
  simp [mergeLoop, PriorityQueue.peekPriority, PriorityQueue.dequeue, bind, Except.bind]

/-- The merge loop, given as many turns as the queue has entries, ends with a
tree; its root is internal and its leaves are the leaves of the queued trees. -/
theorem mergeLoop_spec (fuel : Nat) (pq : List (EncodingTreeNode × Nat))
    (tree : Option EncodingTreeNode) (h2 : 2 ≤ pq.length) (hf : pq.length ≤ fuel + 1) :
    ∃ t, mergeLoop fuel pq tree = .ok (some t) ∧ t.isLeaf = false ∧
      (leafChars t).Perm (pq.map (fun e => leafChars e.1)).flatten := by
  induction fuel generalizing pq tree with
  | zero => omega
  | succ n ih =>
    match pq, h2, hf with
    | (a, pa) :: (b, pb) :: rest, _, hf =>
      rw [mergeLoop_cons_cons]
      have hperm := PriorityQueue.enqueue_perm rest (node a b) (pa + pb)
      have hleaves : ((PriorityQueue.enqueue rest (node a b) (pa + pb)).map
          (fun e => leafChars e.1)).flatten.Perm
          ((((a, pa) :: (b, pb) :: rest).map (fun e => leafChars e.1)).flatten) := by
        refine (List.Perm.flatten (List.Perm.map _ hperm)).trans ?_
        simp [leafChars]
      cases rest with
      | nil =>
        refine ⟨node a b, ?_, rfl, ?_⟩
        · exact mergeLoop_of_length_le_one _ _ _ (by simp [PriorityQueue.enqueue])
        · simp [leafChars]
      | cons c rest =>
        have hlen := PriorityQueue.enqueue_length (c :: rest) (node a b) (pa + pb)
        obtain ⟨t, ht, hl, hp⟩ := ih (PriorityQueue.enqueue (c :: rest) (node a b) (pa + pb))
          (some (node a b)) (by rw [hlen]; simp) (by rw [hlen]; simp at hf ⊢; omega)
        exact ⟨t, ht, hl, hp.trans hleaves⟩

theorem flatten_map_leaf (keys : List Char) (f : Char → Nat) :
    ((keys.map (fun key => (leaf key, f key))).map (fun e => leafChars e.1)).flatten = keys := by
  induction keys with
  | nil => rfl
  | cons k keys ih => simp_all [leafChars]

/-- With at least two distinct characters `buildHuffmanTree` returns a tree; its
root is internal and its leaves are the keys of the occurrence map. -/
theorem buildHuffmanTree_ok (text : List Char) (h : 2 ≤ distinctCount text) :
    ∃ t, buildHuffmanTree text = .ok t ∧ t.isLeaf = false ∧
      (leafChars t).Perm (Map.keys (countOccurrences text [])) := by
  have hlen : (enqueueLeaves (countOccurrences text []) (Map.keys (countOccurrences text [])) []).length
      = distinctCount text := by
    rw [length_enqueueLeaves, length_keys_countOccurrences]
  have hne : text.length ≠ 0 := by
    intro h0
    have : text = [] := List.length_eq_zero.1 h0
    subst this
    simp [distinctCount] at h
  obtain ⟨t, ht, hl, hp⟩ := mergeLoop_spec
    (enqueueLeaves (countOccurrences text []) (Map.keys (countOccurrences text [])) []).length
    (enqueueLeaves (countOccurrences text []) (Map.keys (countOccurrences text [])) []) none
    (by omega) (by omega)
  refine ⟨t, ?_, hl, ?_⟩
  · simp only [buildHuffmanTree, if_neg hne, ht]
    rw [if_neg]
    intro hh
    omega
  · refine hp.trans ?_
    have := (enqueueLeaves_perm (countOccurrences text []) (Map.keys (countOccurrences text [])) [])
    refine (List.Perm.flatten (List.Perm.map (fun e => leafChars e.1) this)).trans ?_
    rw [List.append_nil, flatten_map_leaf]

theorem buildHuffmanTree_error (text : List Char) (h : distinctCount text < 2) :
    ∃ msg, buildHuffmanTree text = .error (.error msg) := by
  by_cases h0 : text.length = 0
  · exact ⟨"no text available to encode", by simp only [buildHuffmanTree, if_pos h0]⟩
  · have hlen : (enqueueLeaves (countOccurrences text [])
        (Map.keys (countOccurrences text [])) []).length = distinctCount text := by
      rw [length_enqueueLeaves, length_keys_countOccurrences]
    have hpos : 0 < distinctCount text := by
      cases text with
      | nil => simp at h0
      | cons c text =>
        have : c ∈ (c :: text).dedup := List.mem_dedup.2 (List.mem_cons_self _ _)
        exact List.length_pos_of_mem this
    refine ⟨"not enough unique characters in text", ?_⟩
    simp only [buildHuffmanTree, if_neg h0]
    rw [if_pos]
    refine ⟨by omega, ?_⟩
    intro he
    rw [List.isEmpty_iff] at he
    rw [he] at hlen
    simp at hlen
    omega

theorem leafChars_buildHuffmanTree (text : List Char) (t : EncodingTreeNode)
    (ht : buildHuffmanTree text = .ok t) (h : 2 ≤ distinctCount text) :
    t.isLeaf = false ∧ (leafChars t).Nodup ∧ ∀ c, c ∈ leafChars t ↔ c ∈ text := by
  obtain ⟨t', ht', hl, hp⟩ := buildHuffmanTree_ok text h
  rw [ht] at ht'
  cases ht'
  refine ⟨hl, hp.nodup_iff.2 (keys_countOccurrences_nodup text), fun c => ?_⟩
  rw [hp.mem_iff, mem_keys_countOccurrences_nil]

/-! ## Compression facade -/

theorem flattenTree_eq_helpers (tree : Option EncodingTreeNode) (treeShape : List Bit)
    (treeLeaves : List Char) :
    flattenTree tree treeShape treeLeaves =
      (generateTreeShape tree treeShape, findLeaves tree treeLeaves) := by
  cases tree with
  | none => rfl
  | some t =>
    simp only [flattenTree, generateTreeShape, findLeaves, flattenTreeNode_eq,
      generateTreeShapeNode_eq, findLeavesNode_eq]

theorem compress_of_build (text : List Char) (tree : EncodingTreeNode)
    (ht : buildHuffmanTree text = .ok tree) :
    compress text = .ok
      { treeShape := (flattenTree (some tree) [] []).1
        treeLeaves := (flattenTree (some tree) [] []).2
        messageBits := encodeText (some tree) text } := by
  simp only [compress, ht, bind, Except.bind, pure, Except.pure, flattenTree_eq_helpers]

theorem find?_sequenceMap_walk (t : EncodingTreeNode) (hn : (leafChars t).Nodup) (c : Char)
    (p : List Bit) (h : Map.find? (sequenceMap (some t) [] []) c = some p) :
    walk t p = some (leaf c) := by
  by_cases hc : c ∈ leafChars t
  · obtain ⟨q, hq⟩ := exists_mem_codeTable t c hc
    rw [find?_sequenceMap t hn c q hq] at h
    have hqp : q = p := Option.some.inj h
    rw [← hqp]
    exact walk_of_mem_codeTable t c q hq
  · rw [find?_sequenceMap_of_not_mem t c hc] at h
    cases h

theorem walk_append (t : EncodingTreeNode) (p q : List Bit) :
    walk t (p ++ q) = (walk t p).bind (fun n => walk n q) := by
  induction p generalizing t with
  | nil => simp [walk]
  | cons b p ih =>
    cases t with
    | leaf ch => simp [walk]
    | node z o =>
      simp only [List.cons_append, walk]
      split_ifs
      · exact ih z
      · exact ih o

/-- In the code table of a tree with pairwise distinct leaf characters no code
is a prefix of the code of a different character. -/
theorem sequenceMap_prefix_free (t : EncodingTreeNode) (hn : (leafChars t).Nodup)
    (c₁ c₂ : Char) (p₁ p₂ : List Bit)
    (h₁ : Map.find? (sequenceMap (some t) [] []) c₁ = some p₁)
    (h₂ : Map.find? (sequenceMap (some t) [] []) c₂ = some p₂) (hne : c₁ ≠ c₂) :
    ¬ p₁ <+: p₂ := by
  intro hpre
  obtain ⟨q, hq⟩ := hpre
  have w₁ := find?_sequenceMap_walk t hn c₁ p₁ h₁
  have w₂ := find?_sequenceMap_walk t hn c₂ p₂ h₂
  rw [← hq, walk_append, w₁] at w₂
  exact hne (walk_leaf_eq c₁ c₂ q w₂).2

/-! ## Optimality of the merge loop

Competing trees are compared through their leaf depths only.  A depth
assignment `d` on an alphabet `A` is admissible when the multiset of the depths
`d c`, `c ∈ A`, is `Realisable`; its cost is the sum of `w c * d c`. -/

theorem realisable_deepest (s : Multiset Nat) (h : Realisable s) :
    ∃ H, (∀ x ∈ s, x ≤ H) ∧
      ((s = {0} ∧ H = 0) ∨
        ∃ r, s = H ::ₘ H ::ₘ r ∧ Realisable ((H - 1) ::ₘ r) ∧ 1 ≤ H) := by
  induction h with
  | leaf => exact ⟨0, by simp, Or.inl ⟨rfl, rfl⟩⟩
  | node s t hs ht ihs iht =>
    obtain ⟨Hs, hsmax, hsd⟩ := ihs
    obtain ⟨Ht, htmax, htd⟩ := iht
    by_cases hle : Ht ≤ Hs
    · refine ⟨Hs + 1, ?_, Or.inr ?_⟩
      · intro x hx
        simp only [Multiset.mem_map, Multiset.mem_add] at hx
        obtain ⟨y, hy | hy, rfl⟩ := hx
        · have := hsmax y hy; omega
        · have := htmax y hy; omega
      · rcases hsd with ⟨rfl, rfl⟩ | ⟨r, rfl, hr, h1⟩
        · rcases htd with ⟨rfl, rfl⟩ | ⟨r, rfl, hr, h1⟩
          · exact ⟨0, by decide, by simpa using Realisable.leaf, by omega⟩
          · omega
        · refine ⟨(r + t).map (· + 1), by simp, ?_, by omega⟩
          have := Realisable.node _ _ hr ht
          simpa [Nat.sub_add_cancel h1] using this
    · refine ⟨Ht + 1, ?_, Or.inr ?_⟩
      · intro x hx
        simp only [Multiset.mem_map, Multiset.mem_add] at hx
        obtain ⟨y, hy | hy, rfl⟩ := hx
        · have := hsmax y hy; omega
        · have := htmax y hy; omega
      · rcases htd with ⟨rfl, rfl⟩ | ⟨r, rfl, hr, h1⟩
        · omega
        · refine ⟨(s + r).map (· + 1), by simp, ?_, by omega⟩
          have := Realisable.node _ _ hs hr
          simpa [Nat.sub_add_cancel h1] using this

/-- A realisable multiset of at least two depths has two entries at the
greatest depth `H ≥ 1`, and replacing them by one entry `H - 1` is realisable. -/
theorem realisable_contract (s : Multiset Nat) (h : Realisable s) (h2 : 2 ≤ Multiset.card s) :
    ∃ H r, s = H ::ₘ H ::ₘ r ∧ Realisable ((H - 1) ::ₘ r) ∧ 1 ≤ H ∧ ∀ x ∈ s, x ≤ H := by
  obtain ⟨H, hmax, hd⟩ := realisable_deepest s h
  rcases hd with ⟨rfl, rfl⟩ | ⟨r, hr, hR, h1⟩
  · simp at h2
  · exact ⟨H, r, hr, hR, h1, hmax⟩

theorem map_swap_perm (A : List Char) (hA : A.Nodup) (p q : Char) (hp : p ∈ A) (hq : q ∈ A) :
    (A.map (Equiv.swap p q)).Perm A := by
  rw [List.perm_ext_iff_of_nodup (hA.map (Equiv.swap p q).injective) hA]
  intro c
  simp only [List.mem_map]
  constructor
  · rintro ⟨x, hx, rfl⟩
    by_cases h1 : x = p
    · subst h1; simpa using hq
    · by_cases h2 : x = q
      · subst h2; simpa using hp
      · rwa [Equiv.swap_apply_of_ne_of_ne h1 h2]
  · intro hc
    refine ⟨Equiv.swap p q c, ?_, by simp⟩
    by_cases h1 : c = p
    · subst h1; simpa using hq
    · by_cases h2 : c = q
      · subst h2; simpa using hp
      · rwa [Equiv.swap_apply_of_ne_of_ne h1 h2]

theorem depths_swap (A : List Char) (hA : A.Nodup) (p q : Char) (hp : p ∈ A) (hq : q ∈ A)
    (d : Char → Nat) :
    Multiset.map (fun c => d (Equiv.swap p q c)) (A : Multiset Char) =
      Multiset.map d (A : Multiset Char) := by
  have h := map_swap_perm A hA p q hp hq
  have e : (fun c => d (Equiv.swap p q c)) = d ∘ (Equiv.swap p q) := rfl
  rw [e, ← Multiset.map_map, Multiset.map_coe, Multiset.coe_eq_coe.2 h]

theorem cost_swap_le (A : List Char) (hA : A.Nodup) (p q : Char) (hp : p ∈ A) (hq : q ∈ A)
    (w d : Char → Nat) (hw : w p ≤ w q) (hd : d p ≤ d q) :
    (A.map (fun c => w c * d (Equiv.swap p q c))).sum ≤ (A.map (fun c => w c * d c)).sum := by
  by_cases hpq : p = q
  · subst hpq
    simp
  · have hq' : q ∈ A.erase p := (List.mem_erase_of_ne (Ne.symm hpq)).2 hq
    have hperm : A.Perm (p :: q :: (A.erase p).erase q) :=
      (List.perm_cons_erase hp).trans (List.Perm.cons p (List.perm_cons_erase hq'))
    have hnd : (p :: q :: (A.erase p).erase q).Nodup := hperm.nodup_iff.1 hA
    have hrest : ∀ c ∈ (A.erase p).erase q, Equiv.swap p q c = c := by
      intro c hc
      have h1 : c ≠ p := by
        rintro rfl
        simp only [List.nodup_cons, List.mem_cons, not_or] at hnd
        exact hnd.1.2 hc
      have h2 : c ≠ q := by
        rintro rfl
        simp only [List.nodup_cons, List.mem_cons, not_or] at hnd
        exact hnd.2.1 hc
      exact Equiv.swap_apply_of_ne_of_ne h1 h2
    rw [(hperm.map (fun c => w c * d (Equiv.swap p q c))).sum_eq,
      (hperm.map (fun c => w c * d c)).sum_eq]
    simp only [List.map_cons, List.sum_cons, Equiv.swap_apply_left, Equiv.swap_apply_right]
    have hmap : ((A.erase p).erase q).map (fun c => w c * d (Equiv.swap p q c)) =
        ((A.erase p).erase q).map (fun c => w c * d c) :=
      List.map_congr_left (fun c hc => by rw [hrest c hc])
    rw [hmap]
    obtain ⟨k, hk⟩ := Nat.exists_eq_add_of_le hw
    obtain ⟨j, hj⟩ := Nat.exists_eq_add_of_le hd
    rw [hk, hj]
    nlinarith [Nat.zero_le (k * j)]

/-- Exchange step: given a realisable depth assignment on an alphabet whose two
lightest characters are `a` and `b`, there is a realisable assignment on the
alphabet without `b`, where `a` carries both weights, that costs at least
`w a + w b` less. -/
theorem contract_assignment (w : Char → Nat) (a b : Char) (rest : List Char)
    (hA : (a :: b :: rest).Nodup) (hab : w a ≤ w b) (hb : ∀ c ∈ rest, w b ≤ w c)
    (d : Char → Nat)
    (hd : Realisable (Multiset.map d ((a :: b :: rest : List Char) : Multiset Char))) :
    ∃ d' : Char → Nat,
      Realisable (Multiset.map d' ((a :: rest : List Char) : Multiset Char)) ∧
      ((a :: rest).map (fun c => Function.update w a (w a + w b) c * d' c)).sum + w a + w b
        ≤ ((a :: b :: rest).map (fun c => w c * d c)).sum := by
  obtain ⟨H, r, hs, hR, h1, hmax⟩ := realisable_contract _ hd (by simp)
  have hnd := hA
  simp only [List.nodup_cons, List.mem_cons, not_or] at hnd
  obtain ⟨⟨hab_ne, ha_rest⟩, hb_rest, hrest_nd⟩ := hnd
  have hwa : ∀ c ∈ a :: b :: rest, w a ≤ w c := by
    intro c hc
    rcases List.mem_cons.1 hc with rfl | hc
    · exact le_refl _
    · rcases List.mem_cons.1 hc with rfl | hc
      · exact hab
      · exact le_trans hab (hb c hc)
  have hwb : ∀ c ∈ a :: b :: rest, c ≠ a → w b ≤ w c := by
    intro c hc hca
    rcases List.mem_cons.1 hc with rfl | hc
    · exact absurd rfl hca
    · rcases List.mem_cons.1 hc with rfl | hc
      · exact le_refl _
      · exact hb c hc
  have hdmax : ∀ (e : Char → Nat), Multiset.map e ((a :: b :: rest : List Char) : Multiset Char)
      = Multiset.map d ((a :: b :: rest : List Char) : Multiset Char) →
      ∀ c ∈ a :: b :: rest, e c ≤ H := by
    intro e he c hc
    apply hmax
    rw [← he]
    exact Multiset.mem_map_of_mem e (by simpa using hc)
  -- two distinct characters at the greatest depth
  obtain ⟨x, hx, hdx, hx'⟩ := (Multiset.map_eq_cons d _ _ H).2 hs
  obtain ⟨y, hy, hdy, -⟩ := (Multiset.map_eq_cons d _ _ H).2 hx'
  have hxA : x ∈ a :: b :: rest := by simpa using hx
  have hyA' : y ∈ (a :: b :: rest).erase x := by simpa using hy
  have hyA : y ∈ a :: b :: rest := List.mem_of_mem_erase hyA'
  have hyx : y ≠ x := fun h => (List.Nodup.mem_erase_iff hA).1 hyA' |>.1 h
  -- move `a` to the greatest depth
  have haA : a ∈ a :: b :: rest := List.mem_cons_self _ _
  have hbA : b ∈ a :: b :: rest := List.mem_cons_of_mem _ (List.mem_cons_self _ _)
  let d₁ : Char → Nat := fun c => d (Equiv.swap a x c)
  have hd₁ := depths_swap _ hA a x haA hxA d
  have hc₁ := cost_swap_le _ hA a x haA hxA w d (hwa x hxA) (by rw [hdx]; exact hdmax d rfl a haA)
  have hd₁a : d₁ a = H := by simp [d₁, hdx]
  obtain ⟨y', hy'A, hy'a, hdy'⟩ : ∃ y', y' ∈ a :: b :: rest ∧ y' ≠ a ∧ d₁ y' = H := by
    by_cases hya : y = a
    · refine ⟨x, hxA, fun h => hyx (by rw [hya, h]), ?_⟩
      simp only [d₁, Equiv.swap_apply_right]
      rw [← hya, hdy]
    · refine ⟨y, hyA, hya, ?_⟩
      simp only [d₁]
      rw [Equiv.swap_apply_of_ne_of_ne hya hyx, hdy]
  -- move `b` to the greatest depth
  let d₂ : Char → Nat := fun c => d₁ (Equiv.swap b y' c)
  have hd₂ := depths_swap _ hA b y' hbA hy'A d₁
  have hc₂ := cost_swap_le _ hA b y' hbA hy'A w d₁ (hwb y' hy'A hy'a)
    (by rw [hdy']; exact hdmax d₁ hd₁ b hbA)
  have hd₂b : d₂ b = H := by simp [d₂, hdy']
  have hd₂a : d₂ a = H := by
    simp only [d₂]
    rw [Equiv.swap_apply_of_ne_of_ne hab_ne (Ne.symm hy'a), hd₁a]
  -- merge the two
  have hrest_map : Multiset.map d₂ (rest : Multiset Char) = r := by
    have e : Multiset.map d₂ ((a :: b :: rest : List Char) : Multiset Char) = H ::ₘ H ::ₘ r := by
      rw [hd₂, hd₁, hs]
    rw [← Multiset.cons_coe, ← Multiset.cons_coe, Multiset.map_cons, Multiset.map_cons,
      hd₂a, hd₂b] at e
    exact (Multiset.cons_inj_right H).1 ((Multiset.cons_inj_right H).1 e)
  refine ⟨Function.update d₂ a (H - 1), ?_, ?_⟩
  · rw [← Multiset.cons_coe, Multiset.map_cons, Function.update_same]
    have : Multiset.map (Function.update d₂ a (H - 1)) (rest : Multiset Char)
        = Multiset.map d₂ (rest : Multiset Char) :=
      Multiset.map_congr rfl (fun c hc => by
        have : c ≠ a := by rintro rfl; exact ha_rest (by simpa using hc)
        rw [Function.update_noteq this])
    rw [this, hrest_map]
    exact hR
  · have hmap : rest.map (fun c => Function.update w a (w a + w b) c *
        Function.update d₂ a (H - 1) c) = rest.map (fun c => w c * d₂ c) :=
      List.map_congr_left (fun c hc => by
        have : c ≠ a := by rintro rfl; exact ha_rest hc
        rw [Function.update_noteq this, Function.update_noteq this])
    have hfin : ((a :: b :: rest).map (fun c => w c * d₂ c)).sum
        ≤ ((a :: b :: rest).map (fun c => w c * d c)).sum := le_trans hc₂ hc₁
    simp only [List.map_cons, List.sum_cons, Function.update_same, hmap]
    simp only [List.map_cons, List.sum_cons, hd₂a, hd₂b] at hfin
    obtain ⟨k, rfl⟩ : ∃ k, H = k + 1 := ⟨H - 1, by omega⟩
    simp only [Nat.add_sub_cancel]
    nlinarith

theorem PriorityQueue.enqueue_map {α β : Type} (f : α → β) (pq : List (α × Nat)) (x : α)
    (p : Nat) :
    PriorityQueue.enqueue (pq.map (Prod.map f id)) (f x) p =
      (PriorityQueue.enqueue pq x p).map (Prod.map f id) := by
  induction pq with
  | nil => rfl
  | cons e rest ih =>
    obtain ⟨y, q⟩ := e
    simp only [List.map_cons, Prod.map_apply, id_eq, PriorityQueue.enqueue]
    split_ifs with h
    · rfl
    · simp only [List.map_cons, Prod.map_apply, id_eq, ih]

/-- The merge loop looks at priorities only: mapping the queued trees through a
function that commutes with `node` maps the result. -/
theorem mergeLoop_map (f : EncodingTreeNode → EncodingTreeNode)
    (hf : ∀ x y, f (node x y) = node (f x) (f y)) (fuel : Nat)
    (pq : List (EncodingTreeNode × Nat)) (tree : Option EncodingTreeNode) :
    mergeLoop fuel (pq.map (Prod.map f id)) (tree.map f) =
      (mergeLoop fuel pq tree).map (Option.map f) := by
  induction fuel generalizing pq tree with
  | zero =>
    by_cases h : pq.length > 1
    · simp [mergeLoop, h, Except.map]
    · simp [mergeLoop, h, Except.map]
  | succ n ih =>
    match pq with
    | [] => simp [mergeLoop, Except.map]
    | [e] => simp [mergeLoop, Except.map]
    | (a, pa) :: (b, pb) :: rest =>
      rw [mergeLoop_cons_cons]
      simp only [List.map_cons, Prod.map_apply, id_eq]
      rw [mergeLoop_cons_cons, ← hf, PriorityQueue.enqueue_map]
      exact ih _ (some (node a b))

theorem weight_substLeaf (w : Char → Nat) (a b : Char) (t : EncodingTreeNode) :
    weight w (substLeaf a (node (leaf a) (leaf b)) t) =
      weight (Function.update w a (w a + w b)) t := by
  induction t with
  | leaf ch =>
    by_cases h : ch = a
    · subst h
      simp [substLeaf, weight]
    · simp [substLeaf, weight, h]
  | node z o ihz iho => simp [substLeaf, weight, ihz, iho]

/-- Splitting the leaf of `a` into an internal node over `a` and `b` adds the
two weights once for every leaf that held `a`. -/
theorem cost_substLeaf (w : Char → Nat) (a b : Char) (t : EncodingTreeNode) :
    cost w (substLeaf a (node (leaf a) (leaf b)) t) =
      cost (Function.update w a (w a + w b)) t + (leafChars t).count a * (w a + w b) := by
  induction t with
  | leaf ch =>
    by_cases h : ch = a
    · subst h
      simp [substLeaf, cost, weight, leafChars]
    · have h' : ¬ (ch == a) = true := by simpa using h
      simp [substLeaf, cost, leafChars, h, List.count_cons, h']
  | node z o ihz iho =>
    simp only [substLeaf, cost, leafChars, List.count_append, ihz, iho, weight_substLeaf]
    ring

/-- Enqueueing the leaf of `a` into a queue of leaves gives a queue of leaves. -/
theorem enqueue_leaf_exists (g : Char → EncodingTreeNode × Nat) (A : List Char) (a : Char) :
    ∃ A' : List Char, A'.Perm (a :: A) ∧
      PriorityQueue.enqueue (A.map g) (g a).1 (g a).2 = A'.map g := by
  induction A with
  | nil => exact ⟨[a], List.Perm.refl _, rfl⟩
  | cons c A ih =>
    simp only [List.map_cons]
    by_cases h : (g a).2 ≤ (g c).2
    · refine ⟨a :: c :: A, List.Perm.refl _, ?_⟩
      simp only [List.map_cons]
      rw [show g c = ((g c).1, (g c).2) from rfl, PriorityQueue.enqueue, if_pos h]
    · obtain ⟨A', hperm, heq⟩ := ih
      refine ⟨c :: A', (List.Perm.cons c hperm).trans (List.Perm.swap _ _ _), ?_⟩
      simp only [List.map_cons]
      rw [show g c = ((g c).1, (g c).2) from rfl, PriorityQueue.enqueue, if_neg h, heq]

theorem realisable_pair_pos (x y : Nat) (h : Realisable (x ::ₘ y ::ₘ 0)) : 1 ≤ x ∧ 1 ≤ y := by
  generalize hm : (x ::ₘ y ::ₘ (0 : Multiset Nat)) = m at h
  cases h with
  | leaf =>
    have := congrArg Multiset.card hm
    simp at this
  | node s t hs' ht' =>
    have hx : x ∈ Multiset.map (· + 1) (s + t) := by rw [← hm]; simp
    have hy : y ∈ Multiset.map (· + 1) (s + t) := by rw [← hm]; simp
    obtain ⟨x', -, rfl⟩ := Multiset.mem_map.1 hx
    obtain ⟨y', -, rfl⟩ := Multiset.mem_map.1 hy
    exact ⟨by omega, by omega⟩

/-- The merge loop on a queue of leaves, one per character of `A`, with
priorities `w` in increasing order, ends with a tree whose cost is at most the
cost of every admissible depth assignment on `A`. -/
theorem mergeLoop_optimal (n : Nat) :
    ∀ (w : Char → Nat) (A : List Char), A.length = n + 2 → A.Nodup →
      A.Pairwise (fun x y => w x ≤ w y) →
      ∀ (fuel : Nat) (tree : Option EncodingTreeNode), A.length ≤ fuel + 1 →
        ∃ t, mergeLoop fuel (A.map (fun c => (leaf c, w c))) tree = .ok (some t) ∧
          ∀ d : Char → Nat, Realisable (Multiset.map d (A : Multiset Char)) →
            cost w t ≤ (A.map (fun c => w c * d c)).sum := by
  induction n with
  | zero =>
    intro w A hlen hnd hsorted fuel tree hfuel
    match A, hlen with
    | [a, b], _ =>
      obtain ⟨f, rfl⟩ : ∃ f, fuel = f + 1 := ⟨fuel - 1, by simp at hfuel; omega⟩
      refine ⟨node (leaf a) (leaf b), ?_, fun d hd => ?_⟩
      · simp only [List.map_cons, List.map_nil]
        rw [mergeLoop_cons_cons]
        exact mergeLoop_of_length_le_one _ _ _ (by simp [PriorityQueue.enqueue])
      · have hd' : Realisable (d a ::ₘ d b ::ₘ 0) := by simpa using hd
        obtain ⟨h1, h2⟩ := realisable_pair_pos _ _ hd'
        simp only [cost, weight, List.map_cons, List.map_nil, List.sum_cons, List.sum_nil]
        nlinarith
  | succ n ih =>
    intro w A hlen hnd hsorted fuel tree hfuel
    match A, hlen with
    | a :: b :: rest, hlen =>
      have hrestlen : rest.length = n + 1 := by simpa using hlen
      obtain ⟨f, rfl⟩ : ∃ f, fuel = f + 1 := ⟨fuel - 1, by simp at hfuel; omega⟩
      have hnd' := hnd
      simp only [List.nodup_cons, List.mem_cons, not_or] at hnd'
      obtain ⟨⟨hab_ne, ha_rest⟩, hb_rest, hrest_nd⟩ := hnd'
      have hs := hsorted
      simp only [List.pairwise_cons, List.mem_cons, forall_eq_or_imp] at hs
      obtain ⟨⟨hab, harest⟩, hbrest, hrest_sorted⟩ := hs
      have hne : ∀ c ∈ rest, c ≠ a := fun c hc h => ha_rest (h ▸ hc)
      have hg : rest.map (fun c => (leaf c, w c)) =
          (rest.map (fun c => (leaf c, Function.update w a (w a + w b) c))).map
            (Prod.map (substLeaf a (node (leaf a) (leaf b))) id) := by
        rw [List.map_map]
        refine List.map_congr_left (fun c hc => ?_)
        simp [substLeaf, hne c hc, Function.update_noteq (hne c hc)]
      obtain ⟨A', hperm, hA'⟩ :=
        enqueue_leaf_exists (fun c => (leaf c, Function.update w a (w a + w b) c)) rest a
      simp only [Function.update_same] at hA'
      have hq : PriorityQueue.enqueue (rest.map (fun c => (leaf c, w c)))
          (node (leaf a) (leaf b)) (w a + w b) =
          (A'.map (fun c => (leaf c, Function.update w a (w a + w b) c))).map
            (Prod.map (substLeaf a (node (leaf a) (leaf b))) id) := by
        have e := PriorityQueue.enqueue_map (substLeaf a (node (leaf a) (leaf b)))
          (rest.map (fun c => (leaf c, Function.update w a (w a + w b) c))) (leaf a) (w a + w b)
        simp only [substLeaf, if_true] at e
        rw [hg, ← hA']
        exact e
      have hA'nd : A'.Nodup := hperm.nodup_iff.2 (List.nodup_cons.2 ⟨ha_rest, hrest_nd⟩)
      have hA'len : A'.length = n + 2 := by rw [hperm.length_eq]; simp [hrestlen]
      have hA'sorted : A'.Pairwise
          (fun x y => Function.update w a (w a + w b) x ≤ Function.update w a (w a + w b) y) := by
        have hr : (rest.map (fun c => (leaf c, Function.update w a (w a + w b) c))).Pairwise
            (fun x y => x.2 ≤ y.2) := by
          rw [List.pairwise_map]
          refine hrest_sorted.imp_of_mem (fun {x y} hx hy hxy => ?_)
          simp only [Function.update_noteq (hne x hx), Function.update_noteq (hne y hy)]
          exact hxy
        have := PriorityQueue.enqueue_sorted _ (leaf a) (w a + w b) hr
        rw [hA', List.pairwise_map] at this
        exact this
      obtain ⟨t', ht', hopt⟩ := ih (Function.update w a (w a + w b)) A' hA'len hA'nd hA'sorted
        f (some (leaf a)) (by rw [hA'len]; simp at hfuel; omega)
      obtain ⟨t'', ht'', -, hleaves⟩ := mergeLoop_spec f
        (A'.map (fun c => (leaf c, Function.update w a (w a + w b) c))) (some (leaf a))
        (by simp [hA'len]) (by simp [hA'len]; simp at hfuel; omega)
      rw [ht'] at ht''
      obtain rfl : t' = t'' := by
        simpa using ht''
      rw [flatten_map_leaf] at hleaves
      have hcount : (leafChars t').count a = 1 := by
        rw [(hleaves.trans hperm).count_eq]
        exact List.count_eq_one_of_mem (List.nodup_cons.2 ⟨ha_rest, hrest_nd⟩)
          (List.mem_cons_self _ _)
      refine ⟨substLeaf a (node (leaf a) (leaf b)) t', ?_, fun d hd => ?_⟩
      · simp only [List.map_cons]
        rw [mergeLoop_cons_cons, hq]
        have := mergeLoop_map (substLeaf a (node (leaf a) (leaf b))) (fun x y => rfl) f
          (A'.map (fun c => (leaf c, Function.update w a (w a + w b) c))) (some (leaf a))
        simp only [Option.map_some', substLeaf, if_true] at this
        rw [this, ht']
        rfl
      · obtain ⟨d', hd', hcost⟩ := contract_assignment w a b rest hnd hab hbrest d hd
        have hd'' : Realisable (Multiset.map d' (A' : Multiset Char)) := by
          rw [Multiset.coe_eq_coe.2 hperm]
          exact hd'
        have h1 := hopt d' hd''
        rw [(hperm.map (fun c => Function.update w a (w a + w b) c * d' c)).sum_eq] at h1
        rw [cost_substLeaf, hcount]
        omega

theorem realisable_codeTable (t : EncodingTreeNode) :
    Realisable (Multiset.map (fun e => e.2.length) (codeTable t : Multiset (Char × List Bit))) := by
  induction t with
  | leaf ch => simpa [codeTable] using Realisable.leaf
  | node z o ihz iho =>
    have := Realisable.node _ _ ihz iho
    simpa [codeTable, ← Multiset.coe_add, Multiset.map_map, Function.comp_def] using this

theorem weight_eq_sum_codeTable (w : Char → Nat) (t : EncodingTreeNode) :
    weight w t = ((codeTable t).map (fun e => w e.1)).sum := by
  induction t with
  | leaf ch => simp [weight, codeTable]
  | node z o ihz iho => simp [weight, codeTable, ihz, iho, Function.comp_def]

theorem cost_eq_sum_codeTable (w : Char → Nat) (t : EncodingTreeNode) :
    cost w t = ((codeTable t).map (fun e => w e.1 * e.2.length)).sum := by
  induction t with
  | leaf ch => simp [cost, codeTable]
  | node z o ihz iho =>
    have e1 : ∀ l : List (Char × List Bit),
        (l.map (fun e => w e.1 * (e.2.length + 1))).sum =
          (l.map (fun e => w e.1 * e.2.length)).sum + (l.map (fun e => w e.1)).sum := by
      intro l
      induction l with
      | nil => rfl
      | cons x l ih =>
        simp only [List.map_cons, List.sum_cons, ih]
        ring
    simp only [cost, codeTable, List.map_append, List.map_map, List.sum_append,
      Function.comp_def, List.length_cons, e1, ← ihz, ← iho, ← weight_eq_sum_codeTable]
    ring

theorem codeLength_of_mem_codeTable (t : EncodingTreeNode) (hn : (leafChars t).Nodup)
    (e : Char × List Bit) (he : e ∈ codeTable t) : codeLength t e.1 = e.2.length := by
  simp only [codeLength, Map.get, find?_sequenceMap t hn e.1 e.2 he, Option.getD_some]

/-- The code lengths of a tree with pairwise distinct leaf characters form an
admissible depth assignment on its leaf characters. -/
theorem realisable_codeLength (t : EncodingTreeNode) (hn : (leafChars t).Nodup) :
    Realisable (Multiset.map (codeLength t) (leafChars t : Multiset Char)) := by
  have h := realisable_codeTable t
  have e : Multiset.map (codeLength t) (leafChars t : Multiset Char) =
      Multiset.map (fun e => e.2.length) (codeTable t : Multiset (Char × List Bit)) := by
    rw [← keys_codeTable, ← Multiset.map_coe, Multiset.map_map]
    exact Multiset.map_congr rfl (fun e he => codeLength_of_mem_codeTable t hn e (by simpa using he))
  rw [e]
  exact h

/-- The cost of a tree with pairwise distinct leaf characters is the sum over
its leaf characters of weight times code length. -/
theorem sum_codeLength_eq_cost (w : Char → Nat) (t : EncodingTreeNode)
    (hn : (leafChars t).Nodup) :
    ((leafChars t).map (fun c => w c * codeLength t c)).sum = cost w t := by
  rw [cost_eq_sum_codeTable, ← keys_codeTable, List.map_map]
  congr 1
  exact List.map_congr_left (fun e he => by
    simp only [Function.comp_apply, codeLength_of_mem_codeTable t hn e he])

theorem encodedLength_eq_cost (text : List Char) (t : EncodingTreeNode)
    (hp : (leafChars t).Perm text.dedup) :
    encodedLength text t = cost (fun c => text.count c) t := by
  have hn : (leafChars t).Nodup := hp.nodup_iff.2 (List.nodup_dedup text)
  rw [← sum_codeLength_eq_cost _ t hn, encodedLength]
  exact ((hp.map (fun c => text.count c * codeLength t c)).sum_eq).symm

theorem enqueueLeaves_leaves (occurrences : List (Char × Nat)) (keys B : List Char) :
    ∃ A : List Char, A.Perm (keys ++ B) ∧
      enqueueLeaves occurrences keys (B.map (fun c => (leaf c, Map.get occurrences c))) =
        A.map (fun c => (leaf c, Map.get occurrences c)) := by
  induction keys generalizing B with
  | nil => exact ⟨B, List.Perm.refl _, rfl⟩
  | cons k keys ih =>
    obtain ⟨B', hB', hq⟩ :=
      enqueue_leaf_exists (fun c => (leaf c, Map.get occurrences c)) B k
    simp only at hq
    obtain ⟨A, hA, hA'⟩ := ih B'
    refine ⟨A, hA.trans ?_, ?_⟩
    · exact (List.Perm.append_left keys hB').trans List.perm_middle
    · simp only [enqueueLeaves, hq, hA']

theorem get_countOccurrences_nil (text : List Char) (c : Char) :
    Map.get (countOccurrences text []) c = text.count c := by
  rw [get_countOccurrences]
  simp [Map.get, Map.find?]

/-- The tree `buildHuffmanTree` returns costs at most as much as every
admissible depth assignment on the distinct characters of the text. -/
theorem buildHuffmanTree_cost_le (text : List Char) (h : 2 ≤ distinctCount text) :
    ∃ t, buildHuffmanTree text = .ok t ∧ (leafChars t).Perm text.dedup ∧
      ∀ d : Char → Nat, Realisable (Multiset.map d (text.dedup : Multiset Char)) →
        cost (fun c => text.count c) t ≤ (text.dedup.map (fun c => text.count c * d c)).sum := by
  obtain ⟨t, ht, -, hp⟩ := buildHuffmanTree_ok text h
  have hpd := hp.trans (keys_countOccurrences_perm text)
  refine ⟨t, ht, hpd, fun d hd => ?_⟩
  obtain ⟨A, hA, hq⟩ := enqueueLeaves_leaves (countOccurrences text [])
    (Map.keys (countOccurrences text [])) []
  simp only [List.map_nil, List.append_nil] at hA hq
  have hg : (fun c => (leaf c, Map.get (countOccurrences text []) c)) =
      (fun c => (leaf c, text.count c)) := by
    funext c
    rw [get_countOccurrences_nil]
  rw [hg] at hq
  have hAd : A.Perm text.dedup := hA.trans (keys_countOccurrences_perm text)
  have hAlen : A.length = (distinctCount text - 2) + 2 := by
    rw [hAd.length_eq]
    simp only [distinctCount] at h ⊢
    omega
  have hsorted : A.Pairwise (fun x y => text.count x ≤ text.count y) := by
    have := enqueueLeaves_sorted (countOccurrences text [])
      (Map.keys (countOccurrences text [])) [] List.Pairwise.nil
    rw [hq, List.pairwise_map] at this
    exact this
  obtain ⟨t', ht', hopt⟩ := mergeLoop_optimal (distinctCount text - 2)
    (fun c => text.count c) A hAlen (hAd.nodup_iff.2 (List.nodup_dedup text)) hsorted
    A.length none (by omega)
  have hbuild : buildHuffmanTree text = .ok t' := by
    have hne : text.length ≠ 0 := by
      intro h0
      have : text = [] := List.length_eq_zero.1 h0
      subst this
      simp [distinctCount] at h
    simp only [buildHuffmanTree, if_neg hne, hq, List.length_map, ht']
    rw [if_neg]
    intro hh
    omega
  rw [ht] at hbuild
  obtain rfl : t = t' := by simpa using hbuild
  have := hopt d (by rw [Multiset.coe_eq_coe.2 hAd]; exact hd)
  rw [(hAd.map (fun c => text.count c * d c)).sum_eq] at this
  exact this

/-- Codes that share their first bit and are prefix-free stay prefix-free
without that bit. -/
theorem prefixFree_tail (S : List Char) (code : Char → List Bit) (h : Bit)
    (hS : ∀ c ∈ S, code c = h :: (code c).tail)
    (hpf : ∀ a ∈ S, ∀ b ∈ S, a ≠ b → ¬ code a <+: code b) :
    ∀ a ∈ S, ∀ b ∈ S, a ≠ b → ¬ (code a).tail <+: (code b).tail := by
  intro a ha b hb hab hpre
  apply hpf a ha b hb hab
  rw [hS a ha, hS b hb]
  exact (List.prefix_cons_inj h).2 hpre

theorem sum_length_tail (S : List Char) (code : Char → List Bit)
    (hS : ∀ c ∈ S, code c ≠ []) :
    (S.map (fun c => (code c).tail.length)).sum + S.length =
      (S.map (fun c => (code c).length)).sum := by
  induction S with
  | nil => rfl
  | cons c S ih =>
    have h1 := hS c (List.mem_cons_self _ _)
    have h2 := ih (fun x hx => hS x (List.mem_cons_of_mem _ hx))
    have h3 : (code c).tail.length + 1 = (code c).length := by
      cases hc : code c with
      | nil => exact absurd hc h1
      | cons b l => simp
    simp only [List.map_cons, List.sum_cons, List.length_cons]
    omega

theorem head_tail_of_head? (l : List Bit) (h : l.head? = some 0) : l = 0 :: l.tail := by
  cases l with
  | nil => simp at h
  | cons b l =>
    simp only [List.head?_cons, Option.some.injEq] at h
    simp [h]

theorem head_tail_of_not_head? (l : List Bit) (hl : l ≠ []) (h : ¬ l.head? = some 0) :
    l = 1 :: l.tail := by
  cases l with
  | nil => exact absurd rfl hl
  | cons b l =>
    simp only [List.head?_cons, Option.some.injEq] at h
    simp [bit_eq_one_of_ne_zero b h]

/-- Kraft-style completion: for a prefix-free code on a non-empty alphabet
there is an admissible depth assignment that is nowhere longer than the code. -/
theorem prefixFree_realisable (N : Nat) :
    ∀ (A : List Char) (code : Char → List Bit),
      (A.map (fun c => (code c).length)).sum < N → A.Nodup → A ≠ [] →
      (∀ a ∈ A, ∀ b ∈ A, a ≠ b → ¬ code a <+: code b) →
      ∃ d : Char → Nat, Realisable (Multiset.map d (A : Multiset Char)) ∧
        ∀ c ∈ A, d c ≤ (code c).length := by
  induction N with
  | zero => intro A code hN; omega
  | succ N ih =>
    intro A code hN hnd hne hpf
    by_cases hsingle : ∃ c, A = [c]
    · obtain ⟨c, rfl⟩ := hsingle
      exact ⟨fun _ => 0, by simpa using Realisable.leaf, fun _ _ => Nat.zero_le _⟩
    · -- every code is non-empty
      have hcode : ∀ c ∈ A, code c ≠ [] := by
        intro c hc hnil
        have : ∃ o ∈ A, c ≠ o := by
          by_contra hno
          push_neg at hno
          apply hsingle
          refine ⟨c, ?_⟩
          match A, hnd, hc, hno with
          | [x], _, hc, _ => simpa using (List.mem_singleton.1 hc).symm
          | x :: y :: rest, hnd, _, hno =>
            have h1 := hno x (List.mem_cons_self _ _)
            have h2 := hno y (List.mem_cons_of_mem _ (List.mem_cons_self _ _))
            simp only [List.nodup_cons, List.mem_cons, not_or] at hnd
            exact absurd (h1.symm.trans h2) hnd.1.1
        obtain ⟨o, ho, hco⟩ := this
        exact hpf c hc o ho hco (by rw [hnil]; exact List.nil_prefix)
      have hlen := sum_length_tail A code hcode
      have hApos : 0 < A.length := List.length_pos.2 hne
      have hperm := List.filter_append_perm (fun c => decide ((code c).head? = some 0)) A
      have hsum := (hperm.map (fun c => (code c).tail.length)).sum_eq
      rw [List.map_append, List.sum_append] at hsum
      have h0 : ∀ c ∈ A.filter (fun c => decide ((code c).head? = some 0)),
          code c = 0 :: (code c).tail := by
        intro c hc
        have := (List.mem_filter.1 hc).2
        exact head_tail_of_head? _ (by simpa using this)
      have h1 : ∀ c ∈ A.filter (fun c => !decide ((code c).head? = some 0)),
          code c = 1 :: (code c).tail := by
        intro c hc
        have := List.mem_filter.1 hc
        exact head_tail_of_not_head? _ (hcode c this.1) (by simpa using this.2)
      have hsub0 : ∀ c ∈ A.filter (fun c => decide ((code c).head? = some 0)), c ∈ A :=
        fun c hc => (List.mem_filter.1 hc).1
      have hsub1 : ∀ c ∈ A.filter (fun c => !decide ((code c).head? = some 0)), c ∈ A :=
        fun c hc => (List.mem_filter.1 hc).1
      have hpf0 := prefixFree_tail _ code 0 h0
        (fun a ha b hb => hpf a (hsub0 a ha) b (hsub0 b hb))
      have hpf1 := prefixFree_tail _ code 1 h1
        (fun a ha b hb => hpf a (hsub1 a ha) b (hsub1 b hb))
      by_cases he0 : A.filter (fun c => decide ((code c).head? = some 0)) = []
      · -- all codes start with 1
        rw [he0] at hperm
        have hA1 : ∀ c ∈ A, code c = 1 :: (code c).tail :=
          fun c hc => h1 c (by simpa using hperm.mem_iff.2 hc)
        obtain ⟨d, hd, hle⟩ := ih A (fun c => (code c).tail)
          (by show (A.map (fun c => (code c).tail.length)).sum < N; omega) hnd hne
          (prefixFree_tail A code 1 hA1 hpf)
        refine ⟨d, hd, fun c hc => le_trans (hle c hc) ?_⟩
        simp
      · by_cases he1 : A.filter (fun c => !decide ((code c).head? = some 0)) = []
        · rw [he1] at hperm
          have hA0 : ∀ c ∈ A, code c = 0 :: (code c).tail :=
            fun c hc => h0 c (by simpa using hperm.mem_iff.2 hc)
          obtain ⟨d, hd, hle⟩ := ih A (fun c => (code c).tail)
            (by show (A.map (fun c => (code c).tail.length)).sum < N; omega) hnd hne
            (prefixFree_tail A code 0 hA0 hpf)
          refine ⟨d, hd, fun c hc => le_trans (hle c hc) ?_⟩
          simp
        · obtain ⟨d0, hd0, hle0⟩ := ih _ (fun c => (code c).tail)
            (by
              show ((A.filter (fun c => decide ((code c).head? = some 0))).map
                (fun c => (code c).tail.length)).sum < N
              omega)
            (hnd.filter _) he0 hpf0
          obtain ⟨d1, hd1, hle1⟩ := ih _ (fun c => (code c).tail)
            (by
              show ((A.filter (fun c => !decide ((code c).head? = some 0))).map
                (fun c => (code c).tail.length)).sum < N
              omega)
            (hnd.filter _) he1 hpf1
          refine ⟨fun c => if (code c).head? = some 0 then d0 c + 1 else d1 c + 1, ?_, ?_⟩
          · rw [← Multiset.coe_eq_coe.2 hperm, ← Multiset.coe_add, Multiset.map_add]
            have e0 : Multiset.map (fun c => if (code c).head? = some 0 then d0 c + 1 else d1 c + 1)
                ((A.filter (fun c => decide ((code c).head? = some 0)) : List Char) : Multiset Char)
                = Multiset.map (· + 1) (Multiset.map d0
                  ((A.filter (fun c => decide ((code c).head? = some 0)) : List Char) :
                    Multiset Char)) := by
              rw [Multiset.map_map]
              refine Multiset.map_congr rfl (fun c hc => ?_)
              have := (List.mem_filter.1 (Multiset.mem_coe.1 hc)).2
              simp only [decide_eq_true_eq] at this
              simp [this]
            have e1 : Multiset.map (fun c => if (code c).head? = some 0 then d0 c + 1 else d1 c + 1)
                ((A.filter (fun c => !decide ((code c).head? = some 0)) : List Char) : Multiset Char)
                = Multiset.map (· + 1) (Multiset.map d1
                  ((A.filter (fun c => !decide ((code c).head? = some 0)) : List Char) :
                    Multiset Char)) := by
              rw [Multiset.map_map]
              refine Multiset.map_congr rfl (fun c hc => ?_)
              have := (List.mem_filter.1 (Multiset.mem_coe.1 hc)).2
              simp only [Bool.not_eq_true', decide_eq_false_iff_not] at this
              simp [this]
            rw [e0, e1, ← Multiset.map_add]
            exact Realisable.node _ _ hd0 hd1
          · intro c hc
            have hcl : (code c).tail.length + 1 = (code c).length := by
              have := hcode c hc
              cases hcc : code c with
              | nil => exact absurd hcc this
              | cons b l => simp
            by_cases hp : (code c).head? = some 0
            · have := hle0 c (List.mem_filter.2 ⟨hc, by simpa using hp⟩)
              simp only [hp, if_true]
              omega
            · have := hle1 c (List.mem_filter.2 ⟨hc, by simpa using hp⟩)
              simp only [hp, if_false]
              omega

/-! ## Malformed and surplus input of `unflattenTree` -/

theorem unflattenTreeAux_nil (order : ArgOrder) (fuel : Nat) (treeLeaves : List Char) :
    unflattenTreeAux order (fuel + 1) [] treeLeaves =
      .error (.error "Queue::dequeue: Attempting to dequeue an empty queue") := rfl

theorem unflattenTreeAux_zero_nil (order : ArgOrder) (fuel : Nat) (treeShape : List Bit) :
    unflattenTreeAux order (fuel + 1) (0 :: treeShape) [] =
      .error (.error "Queue::dequeue: Attempting to dequeue an empty queue") := rfl

theorem unflattenTreeAux_zero_cons (order : ArgOrder) (fuel : Nat) (treeShape : List Bit)
    (ch : Char) (treeLeaves : List Char) :
    unflattenTreeAux order (fuel + 1) (0 :: treeShape) (ch :: treeLeaves) =
      .ok (leaf ch, treeShape, treeLeaves) := rfl

theorem unflattenTreeAux_one (fuel : Nat) (treeShape : List Bit) (treeLeaves : List Char) :
    unflattenTreeAux .zeroFirst (fuel + 1) (1 :: treeShape) treeLeaves =
      (unflattenTreeAux .zeroFirst fuel treeShape treeLeaves).bind (fun r =>
        (unflattenTreeAux .zeroFirst fuel r.2.1 r.2.2).bind (fun r' =>
          .ok (node r.1 r'.1, r'.2.1, r'.2.2))) := rfl

theorem unflattenTreeAux_one_oneFirst (fuel : Nat) (treeShape : List Bit)
    (treeLeaves : List Char) :
    unflattenTreeAux .oneFirst (fuel + 1) (1 :: treeShape) treeLeaves =
      (unflattenTreeAux .oneFirst fuel treeShape treeLeaves).bind (fun r =>
        (unflattenTreeAux .oneFirst fuel r.2.1 r.2.2).bind (fun r' =>
          .ok (node r'.1 r.1, r'.2.1, r'.2.2))) := rfl

/-- Evaluating the second constructor argument first reads the same bits and
characters in the same order, and returns the mirror image of the tree that
evaluating the first argument first returns. -/
theorem unflattenTreeAux_oneFirst (fuel : Nat) (treeShape : List Bit) (treeLeaves : List Char) :
    unflattenTreeAux .oneFirst fuel treeShape treeLeaves =
      (unflattenTreeAux .zeroFirst fuel treeShape treeLeaves).map
        (fun r => (mirror r.1, r.2.1, r.2.2)) := by
  induction fuel generalizing treeShape treeLeaves with
  | zero => rfl
  | succ n ih =>
    match treeShape with
    | [] => rfl
    | b :: rest =>
      by_cases hb : b = 0
      · subst hb
        match treeLeaves with
        | [] => rfl
        | ch :: leaves => rfl
      · have hb1 := bit_eq_one_of_ne_zero b hb
        subst hb1
        rw [unflattenTreeAux_one, unflattenTreeAux_one_oneFirst, ih rest treeLeaves]
        cases h1 : unflattenTreeAux .zeroFirst n rest treeLeaves with
        | error e => rfl
        | ok r =>
          obtain ⟨z, s1, l1⟩ := r
          simp only [Except.map, Except.bind]
          rw [ih s1 l1]
          cases h2 : unflattenTreeAux .zeroFirst n s1 l1 with
          | error e => rfl
          | ok r' => rfl

theorem unflattenTree_oneFirst (treeShape : List Bit) (treeLeaves : List Char) :
    unflattenTree .oneFirst treeShape treeLeaves =
      (unflattenTree .zeroFirst treeShape treeLeaves).map
        (fun r => (mirror r.1, r.2.1, r.2.2)) :=
  unflattenTreeAux_oneFirst _ _ _

theorem unflattenTree_flatten_oneFirst (t : EncodingTreeNode) (s : List Bit) (l : List Char) :
    unflattenTree .oneFirst (preorderShape t ++ s) (leafChars t ++ l) = .ok (mirror t, s, l) := by
  rw [unflattenTree_oneFirst, unflattenTree_flatten]
  rfl

/-- A tree that `unflattenTree` returns was serialised at the front of the two
queues, and what the call leaves in the queues is what followed it. -/
theorem unflattenTreeAux_ok_inv (fuel : Nat) (treeShape : List Bit) (treeLeaves : List Char)
    (t : EncodingTreeNode) (s : List Bit) (l : List Char)
    (h : unflattenTreeAux .zeroFirst fuel treeShape treeLeaves = .ok (t, s, l)) :
    treeShape = preorderShape t ++ s ∧ treeLeaves = leafChars t ++ l := by
  induction fuel generalizing treeShape treeLeaves t s l with
  | zero => simp [unflattenTreeAux] at h
  | succ n ih =>
    match treeShape with
    | [] => simp [unflattenTreeAux_nil] at h
    | b :: rest =>
      by_cases hb : b = 0
      · subst hb
        match treeLeaves with
        | [] => simp [unflattenTreeAux_zero_nil] at h
        | ch :: leaves =>
          rw [unflattenTreeAux_zero_cons] at h
          simp only [Except.ok.injEq, Prod.mk.injEq] at h
          obtain ⟨rfl, rfl, rfl⟩ := h
          simp [preorderShape, leafChars]
      · have hb1 := bit_eq_one_of_ne_zero b hb
        subst hb1
        rw [unflattenTreeAux_one] at h
        cases h1 : unflattenTreeAux .zeroFirst n rest treeLeaves with
        | error e => simp [h1, Except.bind] at h
        | ok r =>
          obtain ⟨z, s1, l1⟩ := r
          cases h2 : unflattenTreeAux .zeroFirst n s1 l1 with
          | error e => simp [h1, h2, Except.bind] at h
          | ok r' =>
            obtain ⟨o, s2, l2⟩ := r'
            simp only [h1, h2, Except.bind, Except.ok.injEq, Prod.mk.injEq] at h
            obtain ⟨rfl, rfl, rfl⟩ := h
            obtain ⟨e1, e2⟩ := ih rest treeLeaves z s1 l1 h1
            obtain ⟨e3, e4⟩ := ih s1 l1 o s2 l2 h2
            subst e1 e2 e3 e4
            simp [preorderShape, leafChars]

/-- With enough fuel `unflattenTree` either returns a tree or stops in the
`error` of a `dequeue` on an empty queue; it never runs out of fuel. -/
theorem unflattenTreeAux_total (fuel : Nat) (treeShape : List Bit) (treeLeaves : List Char)
    (hf : treeShape.length < fuel) :
    (∃ t s l, unflattenTreeAux .zeroFirst fuel treeShape treeLeaves = .ok (t, s, l)) ∨
      unflattenTreeAux .zeroFirst fuel treeShape treeLeaves =
        .error (.error "Queue::dequeue: Attempting to dequeue an empty queue") := by
  induction fuel generalizing treeShape treeLeaves with
  | zero => omega
  | succ n ih =>
    match treeShape, hf with
    | [], _ => exact Or.inr rfl
    | b :: rest, hf =>
      have hrest : rest.length < n := by simpa using hf
      by_cases hb : b = 0
      · subst hb
        match treeLeaves with
        | [] => exact Or.inr rfl
        | ch :: leaves => exact Or.inl ⟨leaf ch, rest, leaves, rfl⟩
      · have hb1 := bit_eq_one_of_ne_zero b hb
        subst hb1
        rw [unflattenTreeAux_one]
        rcases ih rest treeLeaves hrest with ⟨z, s1, l1, h1⟩ | h1
        · have hs1 : s1.length < n := by
            have := (unflattenTreeAux_ok_inv n rest treeLeaves z s1 l1 h1).1
            have hlen := congrArg List.length this
            simp only [List.length_append] at hlen
            omega
          rcases ih s1 l1 hs1 with ⟨o, s2, l2, h2⟩ | h2
          · exact Or.inl ⟨node z o, s2, l2, by simp [h1, h2, Except.bind]⟩
          · exact Or.inr (by simp [h1, h2, Except.bind])
        · exact Or.inr (by simp [h1, Except.bind])

theorem unflattenTree_error_of_not_begins (order : ArgOrder) (treeShape : List Bit)
    (treeLeaves : List Char) (h : ¬ BeginsWithTree treeShape treeLeaves) :
    unflattenTree order treeShape treeLeaves =
      .error (.error "Queue::dequeue: Attempting to dequeue an empty queue") := by
  have hz : unflattenTree .zeroFirst treeShape treeLeaves =
      .error (.error "Queue::dequeue: Attempting to dequeue an empty queue") := by
    rcases unflattenTreeAux_total (treeShape.length + 1) treeShape treeLeaves (by omega) with
      ⟨t, s, l, hok⟩ | herr
    · exact absurd ⟨t, s, l, unflattenTreeAux_ok_inv _ _ _ t s l hok⟩ h
    · exact herr
  cases order with
  | zeroFirst => exact hz
  | oneFirst =>
    rw [unflattenTree_oneFirst, hz]
    rfl

theorem not_beginsWithTree_of_error (treeShape : List Bit) (treeLeaves : List Char) (e : Failure)
    (h : unflattenTree .zeroFirst treeShape treeLeaves = .error e) :
    ¬ BeginsWithTree treeShape treeLeaves := by
  rintro ⟨t, s, l, rfl, rfl⟩
  rw [unflattenTree_flatten] at h
  cases h

/-! ## `decodeText` on arbitrary bit sequences -/

theorem decodeTextLoop_zero (tree z o : EncodingTreeNode) (bits : List Bit) (message : List Char) :
    decodeTextLoop tree (node z o) (0 :: bits) message =
      match z with
      | leaf ch => decodeTextLoop tree tree bits (message ++ [ch])
      | node a b => decodeTextLoop tree (node a b) bits message := by
  cases z <;> simp [decodeTextLoop, zero?]

theorem decodeTextLoop_one (tree z o : EncodingTreeNode) (bits : List Bit) (message : List Char) :
    decodeTextLoop tree (node z o) (1 :: bits) message =
      match o with
      | leaf ch => decodeTextLoop tree tree bits (message ++ [ch])
      | node a b => decodeTextLoop tree (node a b) bits message := by
  cases o <;> simp [decodeTextLoop, one?]

theorem walk_nil (t : EncodingTreeNode) : walk t [] = some t := by
  cases t <;> rfl

theorem walk_snoc_zero (tree z o : EncodingTreeNode) (pre : List Bit)
    (h : walk tree pre = some (node z o)) : walk tree (pre ++ [0]) = some z := by
  rw [walk_append, h]
  simp [walk]

theorem walk_snoc_one (tree z o : EncodingTreeNode) (pre : List Bit)
    (h : walk tree pre = some (node z o)) : walk tree (pre ++ [1]) = some o := by
  rw [walk_append, h]
  simp [walk]

/-- What `decodeText` returns on any bit sequence, for a tree with an internal
root: the bits split into complete root-to-leaf paths followed by a remainder
that ends at an internal node; the result is the text of the complete paths. -/
theorem decodeTextLoop_spec (tree : EncodingTreeNode) (hroot : tree.isLeaf = false)
    (bits : List Bit) :
    ∀ (n : EncodingTreeNode) (pre : List Bit) (message : List Char), n.isLeaf = false →
      walk tree pre = some n →
      ∃ (text : List Char) (paths : List (List Bit)) (rest : List Bit),
        decodeTextLoop tree n bits message = .ok (message ++ text) ∧
        pre ++ bits = paths.flatten ++ rest ∧
        List.Forall₂ (fun p c => walk tree p = some (leaf c)) paths text ∧
        ∃ z o, walk tree rest = some (node z o) := by
  induction bits with
  | nil =>
    intro n pre message hn hw
    cases n with
    | leaf ch => simp [isLeaf] at hn
    | node z o =>
      exact ⟨[], [], pre, by simp [decodeTextLoop], by simp, List.Forall₂.nil, z, o, hw⟩
  | cons b bits ih =>
    intro n pre message hn hw
    cases n with
    | leaf ch => simp [isLeaf] at hn
    | node z o =>
      have key : ∀ child : EncodingTreeNode, walk tree (pre ++ [b]) = some child →
          (decodeTextLoop tree (node z o) (b :: bits) message =
            match child with
            | leaf ch => decodeTextLoop tree tree bits (message ++ [ch])
            | node a c => decodeTextLoop tree (node a c) bits message) →
          ∃ (text : List Char) (paths : List (List Bit)) (rest : List Bit),
            decodeTextLoop tree (node z o) (b :: bits) message = .ok (message ++ text) ∧
            pre ++ b :: bits = paths.flatten ++ rest ∧
            List.Forall₂ (fun p c => walk tree p = some (leaf c)) paths text ∧
            ∃ z o, walk tree rest = some (node z o) := by
        intro child hchild hstep
        cases child with
        | leaf ch =>
          obtain ⟨text, paths, rest, h1, h2, h3, h4⟩ := ih tree [] (message ++ [ch]) hroot (walk_nil tree)
          refine ⟨ch :: text, (pre ++ [b]) :: paths, rest, ?_, ?_, List.Forall₂.cons hchild h3, h4⟩
          · rw [hstep]
            simpa using h1
          · simp only [List.nil_append] at h2
            simp [h2]
        | node a c =>
          obtain ⟨text, paths, rest, h1, h2, h3, h4⟩ :=
            ih (node a c) (pre ++ [b]) message rfl hchild
          refine ⟨text, paths, rest, ?_, ?_, h3, h4⟩
          · rw [hstep]
            exact h1
          · rw [← h2]
            simp
      by_cases hb : b = 0
      · subst hb
        exact key z (walk_snoc_zero tree z o pre hw) (decodeTextLoop_zero tree z o bits message)
      · have hb1 := bit_eq_one_of_ne_zero b hb
        subst hb1
        exact key o (walk_snoc_one tree z o pre hw) (decodeTextLoop_one tree z o bits message)

theorem decodeText_spec (tree : EncodingTreeNode) (hroot : tree.isLeaf = false)
    (bits : List Bit) :
    ∃ (text : List Char) (paths : List (List Bit)) (rest : List Bit),
      decodeText tree bits = .ok text ∧ bits = paths.flatten ++ rest ∧
      List.Forall₂ (fun p c => walk tree p = some (leaf c)) paths text ∧
      ∃ z o, walk tree rest = some (node z o) := by
  obtain ⟨text, paths, rest, h1, h2, h3, h4⟩ := decodeTextLoop_spec tree hroot bits tree [] [] hroot (walk_nil tree)
  exact ⟨text, paths, rest, by simpa [decodeText] using h1, by simpa using h2, h3, h4⟩

/-- Bits that end at an internal node are consumed without output. -/
theorem decodeTextLoop_partial (tree : EncodingTreeNode) (p : List Bit) :
    ∀ (n : EncodingTreeNode) (message : List Char), n.isLeaf = false →
      (∃ z o, walk n p = some (node z o)) →
      decodeTextLoop tree n p message = .ok message := by
  induction p with
  | nil => intro n message _ _; simp [decodeTextLoop]
  | cons b p ih =>
    intro n message hn hw
    obtain ⟨z', o', hw⟩ := hw
    cases n with
    | leaf ch => simp [isLeaf] at hn
    | node z o =>
      by_cases hb : b = 0
      · subst hb
        simp only [walk, if_true] at hw
        rw [decodeTextLoop_zero]
        cases z with
        | leaf ch =>
          cases p with
          | nil => simp [walk] at hw
          | cons b' p' => simp [walk] at hw
        | node a c => exact ih (node a c) message rfl ⟨z', o', hw⟩
      · have hb1 := bit_eq_one_of_ne_zero b hb
        subst hb1
        simp only [walk, if_neg hb] at hw
        rw [decodeTextLoop_one]
        cases o with
        | leaf ch =>
          cases p with
          | nil => simp [walk] at hw
          | cons b' p' => simp [walk] at hw
        | node a c => exact ih (node a c) message rfl ⟨z', o', hw⟩

theorem walk_partial_code (t : EncodingTreeNode) (p q : List Bit) (c : Char) (hq : q ≠ [])
    (h : walk t (p ++ q) = some (leaf c)) : ∃ z o, walk t p = some (node z o) := by
  rw [walk_append] at h
  cases hp : walk t p with
  | none => simp [hp] at h
  | some n =>
    cases n with
    | leaf ch =>
      rw [hp] at h
      exact absurd (walk_leaf_eq ch c q h).1 hq
    | node z o => exact ⟨z, o, rfl⟩

theorem find?_sequenceMap_isSome (t : EncodingTreeNode) (c : Char) (hc : c ∈ leafChars t) :
    ∃ code, Map.find? (sequenceMap (some t) [] []) c = some code := by
  have := (Map.mem_keys_iff _ c).1 ((mem_keys_sequenceMap t c).2 hc)
  exact Option.isSome_iff_exists.1 this

theorem encodeText_append (tree : Option EncodingTreeNode) (a b : List Char) :
    encodeText tree (a ++ b) = encodeText tree a ++ encodeText tree b := by
  simp [encodeText_eq]

theorem get_sequenceMap_of_not_mem (t : EncodingTreeNode) (c : Char) (hc : c ∉ leafChars t) :
    Map.get (sequenceMap (some t) [] []) c = [] := by
  simp only [Map.get, find?_sequenceMap_of_not_mem t c hc, Option.getD_none]
  rfl

/-! ## Two characters of equal frequency -/

/-- C1, evaluated on the code: `decompress(compress(text))` returns `text` only
when the two constructor arguments of `unflattenTree` are evaluated first
argument first; then it does so for every text with at least two distinct
characters.  Evaluated second argument first (as g++ does), `unflattenTree`
rebuilds the mirror image of the tree and "abb" (no two equal counts) comes
back as "baa", "HAPPY HIP HOP" as "AI HHPAP PA  ". -/
theorem decompress_compress_order :
    (∀ text : List Char, 2 ≤ distinctCount text →
      ∃ data, compress text = .ok data ∧ decompress .zeroFirst data = .ok text) ∧
    (∀ (text : List Char) (tree : EncodingTreeNode), buildHuffmanTree text = .ok tree →
      ∃ data, compress text = .ok data ∧
        decompress .oneFirst data = decodeText (mirror tree) (encodeText (some tree) text)) ∧
    compress "abb".toList =
      .ok { treeShape := [1, 0, 0], treeLeaves := ['a', 'b'], messageBits := [0, 1, 1] } ∧
    decompress .oneFirst
      { treeShape := [1, 0, 0], treeLeaves := ['a', 'b'], messageBits := [0, 1, 1] }
      = .ok "baa".toList ∧
    ((compress "HAPPY HIP HOP".toList).bind (decompress .oneFirst))
      = .ok "AI HHPAP PA  ".toList := by
  refine ⟨fun text h => ?_, fun text t ht => ?_, rfl, rfl, rfl⟩
  · obtain ⟨t, ht, _⟩ := buildHuffmanTree_ok text h
    obtain ⟨hl, hn, hmem⟩ := leafChars_buildHuffmanTree text t ht h
    refine ⟨_, compress_of_build text t ht, ?_⟩
    have hu := unflattenTree_flatten t [] []
    simp only [List.append_nil] at hu
    simp only [decompress, flattenTree_some_nil, hu, bind, Except.bind]
    exact decodeText_encodeText_eq t hl hn text (fun c hc => (hmem c).2 hc)
  · refine ⟨_, compress_of_build text t ht, ?_⟩
    have hu := unflattenTree_flatten_oneFirst t [] []
    simp only [List.append_nil] at hu
    simp only [decompress, flattenTree_some_nil, hu, bind, Except.bind]

/-- C2, evaluated on the code: flattening `t` into empty queues and calling
`unflattenTree` on the two queues returns `t` when the first constructor
argument is evaluated first, and the mirror image of `t` when the second is
evaluated first (as g++ does): internal('a', 'b') comes back as
internal('b', 'a'), and the queues of the reference tree give
internal(internal('E', internal('S', 'R')), 'T'). -/
theorem unflattenTree_flattenTree_order :
    (∀ t : EncodingTreeNode,
      unflattenTree .zeroFirst (flattenTree (some t) [] []).1 (flattenTree (some t) [] []).2
        = .ok (t, [], [])) ∧
    (∀ t : EncodingTreeNode,
      unflattenTree .oneFirst (flattenTree (some t) [] []).1 (flattenTree (some t) [] []).2
        = .ok (mirror t, [], [])) ∧
    unflattenTree .oneFirst (flattenTree (some (node (leaf 'a') (leaf 'b'))) [] []).1
        (flattenTree (some (node (leaf 'a') (leaf 'b'))) [] []).2
      = .ok (node (leaf 'b') (leaf 'a'), [], []) ∧
    node (leaf 'b') (leaf 'a') ≠ node (leaf 'a') (leaf 'b') ∧
    unflattenTree .oneFirst [1, 0, 1, 1, 0, 0, 0] ['T', 'R', 'S', 'E']
      = .ok (node (node (leaf 'E') (node (leaf 'S') (leaf 'R'))) (leaf 'T'), [], []) := by
  refine ⟨fun t => ?_, fun t => ?_, rfl, by decide, rfl⟩
  · have h := unflattenTree_flatten t [] []
    simpa [flattenTree_some_nil] using h
  · have h := unflattenTree_flatten_oneFirst t [] []
    simpa [flattenTree_some_nil] using h

/-- C3: `buildHuffmanTree(text)` reports an error exactly when the text has fewer
than two distinct characters (the empty text and "aaaa" included), and returns
a tree exactly when it has at least two (as "ab" has). -/
theorem buildHuffmanTree_error_iff (text : List Char) :
    ((∃ msg, buildHuffmanTree text = .error (.error msg)) ↔ distinctCount text < 2) ∧
    ((∃ tree, buildHuffmanTree text = .ok tree) ↔ 2 ≤ distinctCount text) ∧
    buildHuffmanTree "".toList = .error (.error "no text available to encode") ∧
    buildHuffmanTree "aaaa".toList = .error (.error "not enough unique characters in text") ∧
    buildHuffmanTree "ab".toList = .ok (node (leaf 'b') (leaf 'a')) := by
  refine ⟨⟨fun ⟨msg, hm⟩ => ?_, buildHuffmanTree_error text⟩,
    ⟨fun ⟨tree, ht⟩ => ?_, fun h => ?_⟩, rfl, rfl, rfl⟩
  · by_contra hlt
    obtain ⟨t, ht, _⟩ := buildHuffmanTree_ok text (by omega)
    rw [hm] at ht
    cases ht
  · by_contra hlt
    obtain ⟨msg, hm⟩ := buildHuffmanTree_error text (by omega)
    rw [ht] at hm
    cases hm
  · obtain ⟨t, ht, _⟩ := buildHuffmanTree_ok text h
    exact ⟨t, ht⟩

/-- C4: for every text with at least two distinct characters, in the code table
that `sequenceMap` derives from `buildHuffmanTree(text)`, no character's bit
code is a prefix of a different character's bit code. -/
theorem buildHuffmanTree_prefix_free (text : List Char) (h : 2 ≤ distinctCount text) :
    ∃ tree, buildHuffmanTree text = .ok tree ∧
      ∀ (c₁ c₂ : Char) (p₁ p₂ : List Bit),
        Map.find? (sequenceMap (some tree) [] []) c₁ = some p₁ →
        Map.find? (sequenceMap (some tree) [] []) c₂ = some p₂ →
        c₁ ≠ c₂ → ¬ p₁ <+: p₂ := by
  obtain ⟨t, ht, _⟩ := buildHuffmanTree_ok text h
  have hn := (leafChars_buildHuffmanTree text t ht h).2.1
  exact ⟨t, ht, fun c₁ c₂ p₁ p₂ h₁ h₂ hne => sequenceMap_prefix_free t hn c₁ c₂ p₁ p₂ h₁ h₂ hne⟩

theorem buildHuffmanTree_prefix_free_witness :
    2 ≤ distinctCount "STREETTEST".toList ∧
    ∃ tree, buildHuffmanTree "STREETTEST".toList = .ok tree ∧
      ∀ (c₁ c₂ : Char) (p₁ p₂ : List Bit),
        Map.find? (sequenceMap (some tree) [] []) c₁ = some p₁ →
        Map.find? (sequenceMap (some tree) [] []) c₂ = some p₂ →
        c₁ ≠ c₂ → ¬ p₁ <+: p₂ :=
  ⟨by decide, buildHuffmanTree_prefix_free "STREETTEST".toList (by decide)⟩

/-- C5: for every text with at least two distinct characters the tree built by
`buildHuffmanTree(text)` is optimal.  Its leaves are exactly the distinct
characters of the text, every character of the text has a code in its code
table, and the sum over the distinct characters of (occurrences in the text ×
length of the character's code in the tree) is at most the same sum for every
binary tree whose leaves are exactly those characters, and at most the same
sum for every binary prefix-free code on those characters. -/
theorem buildHuffmanTree_optimal (text : List Char) (h : 2 ≤ distinctCount text) :
    ∃ tree, buildHuffmanTree text = .ok tree ∧
      (leafChars tree).Perm text.dedup ∧
      (∀ c ∈ text, ∃ code, Map.find? (sequenceMap (some tree) [] []) c = some code ∧
        walk tree code = some (leaf c) ∧ codeLength tree c = code.length) ∧
      (∀ u : EncodingTreeNode, (leafChars u).Perm text.dedup →
        encodedLength text tree ≤ encodedLength text u) ∧
      (∀ code : Char → List Bit,
        (∀ a ∈ text, ∀ b ∈ text, a ≠ b → ¬ code a <+: code b) →
        encodedLength text tree ≤ (text.dedup.map (fun c => text.count c * (code c).length)).sum) := by
  obtain ⟨t, ht, hp, hopt⟩ := buildHuffmanTree_cost_le text h
  have htn : (leafChars t).Nodup := hp.nodup_iff.2 (List.nodup_dedup text)
  refine ⟨t, ht, hp, fun c hc => ?_, fun u hu => ?_, fun code hcode => ?_⟩
  · obtain ⟨code, hcode⟩ := find?_sequenceMap_isSome t c
      (hp.mem_iff.2 (List.mem_dedup.2 hc))
    exact ⟨code, hcode, find?_sequenceMap_walk t htn c code hcode,
      by simp [codeLength, Map.get, hcode]⟩
  · have hun : (leafChars u).Nodup := hu.nodup_iff.2 (List.nodup_dedup text)
    have hd : Realisable (Multiset.map (codeLength u) (text.dedup : Multiset Char)) := by
      rw [← Multiset.coe_eq_coe.2 hu]
      exact realisable_codeLength u hun
    rw [encodedLength_eq_cost text t hp]
    exact hopt (codeLength u) hd
  · have hne : text.dedup ≠ [] := by
      intro he
      simp [distinctCount, he] at h
    obtain ⟨d, hd, hle⟩ := prefixFree_realisable
      ((text.dedup.map (fun c => (code c).length)).sum + 1) text.dedup code (by omega)
      (List.nodup_dedup text) hne
      (fun a ha b hb => hcode a (List.mem_dedup.1 ha) b (List.mem_dedup.1 hb))
    rw [encodedLength_eq_cost text t hp]
    refine le_trans (hopt d hd) (List.sum_le_sum (fun c hc => ?_))
    exact Nat.mul_le_mul_left _ (hle c hc)

theorem buildHuffmanTree_optimal_witness :
    2 ≤ distinctCount "STREETTEST".toList ∧
    ∃ tree, buildHuffmanTree "STREETTEST".toList = .ok tree ∧
      (leafChars tree).Perm "STREETTEST".toList.dedup ∧
      (∀ c ∈ "STREETTEST".toList, ∃ code,
        Map.find? (sequenceMap (some tree) [] []) c = some code ∧
        walk tree code = some (leaf c) ∧ codeLength tree c = code.length) ∧
      (∀ u : EncodingTreeNode, (leafChars u).Perm "STREETTEST".toList.dedup →
        encodedLength "STREETTEST".toList tree ≤ encodedLength "STREETTEST".toList u) ∧
      (∀ code : Char → List Bit,
        (∀ a ∈ "STREETTEST".toList, ∀ b ∈ "STREETTEST".toList, a ≠ b → ¬ code a <+: code b) →
        encodedLength "STREETTEST".toList tree ≤
          ("STREETTEST".toList.dedup.map
            (fun c => "STREETTEST".toList.count c * (code c).length)).sum) :=
  ⟨by decide, buildHuffmanTree_optimal "STREETTEST".toList (by decide)⟩

/-- C6: for every encoding tree whose root is an internal node and whose leaves
hold pairwise distinct characters, and every text all of whose characters
occur at leaves of the tree, `decodeText(t, encodeText(t, text))` returns
`text`. -/
theorem decodeText_encodeText (t : EncodingTreeNode) (hroot : t.isLeaf = false)
    (hn : (leafChars t).Nodup) (text : List Char) (hc : ∀ c ∈ text, c ∈ leafChars t) :
    decodeText t (encodeText (some t) text) = .ok text :=
  decodeText_encodeText_eq t hroot hn text hc

theorem decodeText_encodeText_witness :
    createExampleTree.isLeaf = false ∧ (leafChars createExampleTree).Nodup ∧
    (∀ c ∈ "STRESS".toList, c ∈ leafChars createExampleTree) ∧
    encodeText (some createExampleTree) "STRESS".toList
      = [1, 0, 1, 0, 1, 0, 0, 1, 1, 1, 0, 1, 1, 0, 1] ∧
    decodeText createExampleTree (encodeText (some createExampleTree) "STRESS".toList)
      = .ok "STRESS".toList :=
  ⟨by decide, by decide, by decide, by decide,
    decodeText_encodeText createExampleTree (by decide) (by decide) "STRESS".toList (by decide)⟩

/-- C7: `buildHuffmanTree("STREETTEST")` returns the reference tree of
`createExampleTree`: internal(zero: leaf 'T', one: internal(zero:
internal(zero: leaf 'R', one: leaf 'S'), one: leaf 'E')). -/
theorem buildHuffmanTree_STREETTEST :
    buildHuffmanTree "STREETTEST".toList = .ok createExampleTree ∧
    createExampleTree = node (leaf 'T') (node (node (leaf 'R') (leaf 'S')) (leaf 'E')) :=
  ⟨rfl, rfl⟩

/-- C8: for every text with at least two distinct characters `compress(text)` is
the composition: with `tree = buildHuffmanTree(text)`, its `treeShape` and
`treeLeaves` are the two queues `flattenTree(tree)` produces from empty queues
and its `messageBits` is `encodeText(tree, text)`.  The helpers
`generateTreeShape` and `findLeaves` yield, for every tree, the shape and the
leaves of `flattenTree`.  `compress("STREETTEST")` is shape `[1,0,1,1,0,0,0]`,
leaves `['T','R','S','E']`, bits `[1,0,1,0,1,0,0,1,1,1,1,0,0,1,1,1,0,1,0]`. -/
theorem compress_composition (text : List Char) (h : 2 ≤ distinctCount text) :
    (∃ tree, buildHuffmanTree text = .ok tree ∧
      compress text = .ok
        { treeShape := (flattenTree (some tree) [] []).1
          treeLeaves := (flattenTree (some tree) [] []).2
          messageBits := encodeText (some tree) text }) ∧
    (∀ (tree : Option EncodingTreeNode) (treeShape : List Bit) (treeLeaves : List Char),
      flattenTree tree treeShape treeLeaves =
        (generateTreeShape tree treeShape, findLeaves tree treeLeaves)) ∧
    compress "STREETTEST".toList = .ok
      { treeShape := [1, 0, 1, 1, 0, 0, 0]
        treeLeaves := ['T', 'R', 'S', 'E']
        messageBits := [1, 0, 1, 0, 1, 0, 0, 1, 1, 1, 1, 0, 0, 1, 1, 1, 0, 1, 0] } := by
  refine ⟨?_, flattenTree_eq_helpers, rfl⟩
  obtain ⟨t, ht, _⟩ := buildHuffmanTree_ok text h
  exact ⟨t, ht, compress_of_build text t ht⟩

theorem compress_composition_witness :
    2 ≤ distinctCount "STREETTEST".toList ∧
    ((∃ tree, buildHuffmanTree "STREETTEST".toList = .ok tree ∧
      compress "STREETTEST".toList = .ok
        { treeShape := (flattenTree (some tree) [] []).1
          treeLeaves := (flattenTree (some tree) [] []).2
          messageBits := encodeText (some tree) "STREETTEST".toList }) ∧
    (∀ (tree : Option EncodingTreeNode) (treeShape : List Bit) (treeLeaves : List Char),
      flattenTree tree treeShape treeLeaves =
        (generateTreeShape tree treeShape, findLeaves tree treeLeaves)) ∧
    compress "STREETTEST".toList = .ok
      { treeShape := [1, 0, 1, 1, 0, 0, 0]
        treeLeaves := ['T', 'R', 'S', 'E']
        messageBits := [1, 0, 1, 0, 1, 0, 0, 1, 1, 1, 1, 0, 0, 1, 1, 1, 0, 1, 0] }) :=
  ⟨by decide, compress_composition "STREETTEST".toList (by decide)⟩

/-- C9: `flattenTree` is the pre-order serialisation.  Started on empty queues, a
leaf holding `c` yields shape `[0]` and leaves `[c]`; an internal node yields
shape `1`, then the shape of the zero-branch, then the shape of the one-branch,
and leaves = the leaves of the zero-branch followed by those of the one-branch.
On the reference tree the result is `[1,0,1,1,0,0,0]` and `['T','R','S','E']`. -/
theorem flattenTree_preorder :
    (∀ c : Char, flattenTree (some (leaf c)) [] [] = ([0], [c])) ∧
    (∀ zero one : EncodingTreeNode,
      flattenTree (some (node zero one)) [] [] =
        (1 :: ((flattenTree (some zero) [] []).1 ++ (flattenTree (some one) [] []).1),
         (flattenTree (some zero) [] []).2 ++ (flattenTree (some one) [] []).2)) ∧
    (∀ t : EncodingTreeNode, flattenTree (some t) [] [] = (preorderShape t, leafChars t)) ∧
    flattenTree (some createExampleTree) [] [] =
      ([1, 0, 1, 1, 0, 0, 0], ['T', 'R', 'S', 'E']) := by
  refine ⟨fun c => rfl, fun z o => ?_, flattenTree_some_nil, by decide⟩
  simp only [flattenTree_some_nil, preorderShape, leafChars]

/-- C10: for a tree whose leaves hold pairwise distinct characters, `sequenceMap`
called with an empty map and an empty path returns a map whose keys are exactly
the leaf characters and that sends each character to the bit path from the root
to its leaf; for the null tree it returns the empty map; on the reference tree
it returns `T -> [0]`, `R -> [1,0,0]`, `S -> [1,0,1]`, `E -> [1,1]`. -/
theorem sequenceMap_codes (t : EncodingTreeNode) (hn : (leafChars t).Nodup) :
    (Map.keys (sequenceMap (some t) [] [])).Perm (leafChars t) ∧
    (∀ c ∈ leafChars t, ∃ path,
      Map.find? (sequenceMap (some t) [] []) c = some path ∧ walk t path = some (leaf c)) ∧
    sequenceMap none [] [] = [] ∧
    sequenceMap (some createExampleTree) [] [] =
      [('E', [1, 1]), ('R', [1, 0, 0]), ('S', [1, 0, 1]), ('T', [0])] := by
  refine ⟨keys_sequenceMap_perm t hn, fun c hc => ?_, rfl, by decide⟩
  obtain ⟨p, hp⟩ := exists_mem_codeTable t c hc
  exact ⟨p, find?_sequenceMap t hn c p hp, walk_of_mem_codeTable t c p hp⟩

theorem sequenceMap_codes_witness :
    (leafChars createExampleTree).Nodup ∧
    ((Map.keys (sequenceMap (some createExampleTree) [] [])).Perm (leafChars createExampleTree) ∧
    (∀ c ∈ leafChars createExampleTree, ∃ path,
      Map.find? (sequenceMap (some createExampleTree) [] []) c = some path ∧
        walk createExampleTree path = some (leaf c)) ∧
    sequenceMap none [] [] = [] ∧
    sequenceMap (some createExampleTree) [] [] =
      [('E', [1, 1]), ('R', [1, 0, 0]), ('S', [1, 0, 1]), ('T', [0])]) :=
  ⟨by decide, sequenceMap_codes createExampleTree (by decide)⟩

/-- C11: for every encoding tree `t` and every text whose characters all occur at
leaves of `t`, every character of the text has a code-table entry and
`encodeText(t, text)` is the concatenation, in text order, of these entries;
`encodeText(t, "")` is empty and `encodeText(t, a ++ b)` is
`encodeText(t, a) ++ encodeText(t, b)`.  On the reference tree "SET" encodes
to `[1,0,1,1,1,0]`. -/
theorem encodeText_concat (t : EncodingTreeNode) (text : List Char)
    (hc : ∀ c ∈ text, c ∈ leafChars t) :
    (∀ c ∈ text, ∃ code, Map.find? (sequenceMap (some t) [] []) c = some code ∧
      Map.get (sequenceMap (some t) [] []) c = code) ∧
    encodeText (some t) text =
      (text.map (fun c => Map.get (sequenceMap (some t) [] []) c)).flatten ∧
    encodeText (some t) [] = [] ∧
    (∀ a b : List Char,
      encodeText (some t) (a ++ b) = encodeText (some t) a ++ encodeText (some t) b) ∧
    encodeText (some createExampleTree) "SET".toList = [1, 0, 1, 1, 1, 0] := by
  refine ⟨fun c hcm => ?_, encodeText_eq _ _, rfl, encodeText_append _, by decide⟩
  obtain ⟨code, hcode⟩ := find?_sequenceMap_isSome t c (hc c hcm)
  exact ⟨code, hcode, by simp [Map.get, hcode]⟩

theorem encodeText_concat_witness :
    (∀ c ∈ "SET".toList, c ∈ leafChars createExampleTree) ∧
    ((∀ c ∈ "SET".toList, ∃ code,
      Map.find? (sequenceMap (some createExampleTree) [] []) c = some code ∧
      Map.get (sequenceMap (some createExampleTree) [] []) c = code) ∧
    encodeText (some createExampleTree) "SET".toList =
      ("SET".toList.map
        (fun c => Map.get (sequenceMap (some createExampleTree) [] []) c)).flatten ∧
    encodeText (some createExampleTree) [] = [] ∧
    (∀ a b : List Char,
      encodeText (some createExampleTree) (a ++ b) =
        encodeText (some createExampleTree) a ++ encodeText (some createExampleTree) b) ∧
    encodeText (some createExampleTree) "SET".toList = [1, 0, 1, 1, 1, 0]) :=
  ⟨by decide, encodeText_concat createExampleTree "SET".toList (by decide)⟩

/-- C12, as the code behaves: a character that is at no leaf of the tree
contributes no bits; `encodeText` returns the bits of the characters before it
followed by the bits of the characters after it, and reports no error. -/
theorem encodeText_unmapped (t : EncodingTreeNode) (pre post : List Char) (c : Char)
    (hc : c ∉ leafChars t) :
    encodeText (some t) (pre ++ c :: post) =
      encodeText (some t) pre ++ encodeText (some t) post := by
  have h : encodeText (some t) [c] = [] := by
    simp [encodeText_eq, get_sequenceMap_of_not_mem t c hc]
  rw [show pre ++ c :: post = pre ++ ([c] ++ post) from rfl, encodeText_append,
    encodeText_append, h, List.nil_append]

theorem encodeText_unmapped_witness :
    'X' ∉ leafChars createExampleTree ∧
    encodeText (some createExampleTree) ("SE".toList ++ 'X' :: "T".toList) =
      encodeText (some createExampleTree) "SE".toList ++
        encodeText (some createExampleTree) "T".toList :=
  ⟨by decide, encodeText_unmapped createExampleTree "SE".toList "T".toList 'X' (by decide)⟩

/-- C12 fails on the code: 'X' is at no leaf of the reference tree, and
`encodeText` on "SEXT" returns the bits of "SET" instead of failing. -/
theorem encodeText_unmapped_counterexample :
    'X' ∈ "SEXT".toList ∧ 'X' ∉ leafChars createExampleTree ∧
    encodeText (some createExampleTree) "SEXT".toList = [1, 0, 1, 1, 1, 0] := by
  decide

/-- C13, as the code behaves: for every encoding tree whose root is internal and
every bit sequence, `decodeText` returns a text without error.  The bits split
into complete root-to-leaf paths followed by a remainder that ends at an
internal node (part-way down the tree, or at the root when nothing remains);
the text returned holds the characters of the complete paths and the remainder
is dropped. -/
theorem decodeText_total (t : EncodingTreeNode) (hroot : t.isLeaf = false) (bits : List Bit) :
    ∃ (text : List Char) (paths : List (List Bit)) (rest : List Bit),
      decodeText t bits = .ok text ∧ bits = paths.flatten ++ rest ∧
      List.Forall₂ (fun p c => walk t p = some (leaf c)) paths text ∧
      ∃ z o, walk t rest = some (node z o) :=
  decodeText_spec t hroot bits

theorem decodeText_total_witness :
    createExampleTree.isLeaf = false ∧
    ∃ (text : List Char) (paths : List (List Bit)) (rest : List Bit),
      decodeText createExampleTree [1, 1, 1] = .ok text ∧ [1, 1, 1] = paths.flatten ++ rest ∧
      List.Forall₂ (fun p c => walk createExampleTree p = some (leaf c)) paths text ∧
      ∃ z o, walk createExampleTree rest = some (node z o) :=
  ⟨by decide, decodeText_total createExampleTree (by decide) [1, 1, 1]⟩

/-- C13 fails on the code: on the reference tree the bits `[1,1,1]` are the code
of 'E' followed by one bit that stops part-way down the tree; they are not a
concatenation of complete paths, and `decodeText` returns "E" instead of
failing. -/
theorem decodeText_malformed_counterexample :
    createExampleTree.isLeaf = false ∧ ¬ IsCodeSequence createExampleTree [1, 1, 1] ∧
    decodeText createExampleTree [1, 1, 1] = .ok ['E'] := by
  refine ⟨by decide, ?_, rfl⟩
  rintro ⟨paths, hflat, hpaths⟩
  have hlast : ∀ (ps : List (List Bit)) (bits : List Bit), bits = ps.flatten →
      (∀ p ∈ ps, ∃ c, walk createExampleTree p = some (leaf c)) →
      bits = [] ∨ bits = [0] ∨ (∃ r, bits = 1 :: 1 :: r ∧ r ≠ [1]) ∨
        (∃ r, bits = 1 :: 0 :: r) ∨ (∃ r, bits = 0 :: r ∧ r ≠ []) := by
    intro ps
    induction ps with
    | nil => intro bits hb _; exact Or.inl (by simpa using hb)
    | cons p ps ih =>
      intro bits hb hp
      obtain ⟨c, hc⟩ := hp p (List.mem_cons_self _ _)
      have ih' := ih ps.flatten rfl (fun q hq => hp q (List.mem_cons_of_mem _ hq))
      have hp' : p = [0] ∨ p = [1, 1] ∨ p = [1, 0, 0] ∨ p = [1, 0, 1] := by
        match p, hc with
        | [], hc => simp [walk, createExampleTree] at hc
        | [0], _ => simp
        | 0 :: _ :: _, hc => simp [walk, createExampleTree] at hc
        | [1], hc => simp [walk, createExampleTree] at hc
        | [1, 1], _ => simp
        | 1 :: 1 :: _ :: _, hc => simp [walk, createExampleTree] at hc
        | [1, 0], hc => simp [walk, createExampleTree] at hc
        | [1, 0, 0], _ => simp
        | [1, 0, 1], _ => simp
        | 1 :: 0 :: 0 :: _ :: _, hc => simp [walk, createExampleTree] at hc
        | 1 :: 0 :: 1 :: _ :: _, hc => simp [walk, createExampleTree] at hc
      rw [List.flatten_cons] at hb
      rcases hp' with rfl | rfl | rfl | rfl
      · rcases ih' with h | h | ⟨r, h, _⟩ | ⟨r, h⟩ | ⟨r, h, _⟩ <;> rw [h] at hb <;> simp [hb]
      · rcases ih' with h | h | ⟨r, h, _⟩ | ⟨r, h⟩ | ⟨r, h, _⟩ <;> rw [h] at hb <;> simp [hb]
      · exact Or.inr (Or.inr (Or.inr (Or.inl ⟨_, by simpa using hb⟩)))
      · exact Or.inr (Or.inr (Or.inr (Or.inl ⟨_, by simpa using hb⟩)))
  rcases hlast paths [1, 1, 1] hflat hpaths with h | h | ⟨r, h, hr⟩ | ⟨r, h⟩ | ⟨r, h, _⟩
  · simp at h
  · simp at h
  · simp only [List.cons.injEq, true_and] at h
    exact hr h.symm
  · simp at h
  · simp at h

/-- C14: for every pair (shape, leaves) in which a queue runs out before the
traversal completes (the pair does not begin with the serialisation of a
complete tree; in particular the shape is empty when a bit is needed, or the
leaves are empty when a `0` bit asks for a character), `unflattenTree` ends in
the `error` that `dequeue` raises on an empty queue and returns no tree, in
either evaluation order of the constructor arguments. -/
theorem unflattenTree_exhausted (order : ArgOrder) (treeShape : List Bit)
    (treeLeaves : List Char) (h : ¬ BeginsWithTree treeShape treeLeaves) :
    unflattenTree order treeShape treeLeaves =
      .error (.error "Queue::dequeue: Attempting to dequeue an empty queue") ∧
    (∀ leaves : List Char, unflattenTree order [] leaves =
      .error (.error "Queue::dequeue: Attempting to dequeue an empty queue")) ∧
    (∀ shape : List Bit, unflattenTree order (0 :: shape) [] =
      .error (.error "Queue::dequeue: Attempting to dequeue an empty queue")) :=
  ⟨unflattenTree_error_of_not_begins order treeShape treeLeaves h, fun _ => rfl, fun _ => rfl⟩

theorem unflattenTree_exhausted_witness :
    ¬ BeginsWithTree [1, 0] ['a'] ∧
    (unflattenTree .oneFirst [1, 0] ['a'] =
      .error (.error "Queue::dequeue: Attempting to dequeue an empty queue") ∧
    (∀ leaves : List Char, unflattenTree .oneFirst [] leaves =
      .error (.error "Queue::dequeue: Attempting to dequeue an empty queue")) ∧
    (∀ shape : List Bit, unflattenTree .oneFirst (0 :: shape) [] =
      .error (.error "Queue::dequeue: Attempting to dequeue an empty queue"))) ∧
    (unflattenTree .zeroFirst [1, 0] ['a'] =
      .error (.error "Queue::dequeue: Attempting to dequeue an empty queue") ∧
    (∀ leaves : List Char, unflattenTree .zeroFirst [] leaves =
      .error (.error "Queue::dequeue: Attempting to dequeue an empty queue")) ∧
    (∀ shape : List Bit, unflattenTree .zeroFirst (0 :: shape) [] =
      .error (.error "Queue::dequeue: Attempting to dequeue an empty queue"))) :=
  ⟨not_beginsWithTree_of_error [1, 0] ['a'] _ rfl,
    unflattenTree_exhausted .oneFirst [1, 0] ['a'] (not_beginsWithTree_of_error [1, 0] ['a'] _ rfl),
    unflattenTree_exhausted .zeroFirst [1, 0] ['a']
      (not_beginsWithTree_of_error [1, 0] ['a'] _ rfl)⟩

/-- C15, as the code behaves: when bits of the shape or characters of the leaves
remain once one complete tree has been read, `unflattenTree` returns a tree
without error and leaves the remaining elements in the two queues, and
`decompress` decodes the message with the tree returned; this holds in either
evaluation order of the constructor arguments. -/
theorem unflattenTree_surplus (order : ArgOrder) (t : EncodingTreeNode) (s : List Bit)
    (l : List Char) :
    ∃ tree, unflattenTree order (preorderShape t ++ s) (leafChars t ++ l) = .ok (tree, s, l) ∧
      ∀ messageBits : List Bit,
        decompress order
          { treeShape := preorderShape t ++ s, treeLeaves := leafChars t ++ l,
            messageBits := messageBits } = decodeText tree messageBits := by
  cases order with
  | zeroFirst =>
    refine ⟨t, unflattenTree_flatten t s l, fun messageBits => ?_⟩
    simp only [decompress, unflattenTree_flatten, bind, Except.bind]
  | oneFirst =>
    refine ⟨mirror t, unflattenTree_flatten_oneFirst t s l, fun messageBits => ?_⟩
    simp only [decompress, unflattenTree_flatten_oneFirst, bind, Except.bind]

/-- C15 fails on the code: after the three bits and two characters of a complete
tree one bit and one character remain unconsumed; in either evaluation order
`unflattenTree` returns a tree and leaves `[0]` and `['c']`, and `decompress`
returns a text instead of failing. -/
theorem unflattenTree_surplus_counterexample :
    (unflattenTree .zeroFirst [1, 0, 0, 0] ['a', 'b', 'c']
        = .ok (node (leaf 'a') (leaf 'b'), [0], ['c']) ∧
      decompress .zeroFirst
        { treeShape := [1, 0, 0, 0], treeLeaves := ['a', 'b', 'c'], messageBits := [0, 1] }
        = .ok ['a', 'b']) ∧
    (unflattenTree .oneFirst [1, 0, 0, 0] ['a', 'b', 'c']
        = .ok (node (leaf 'b') (leaf 'a'), [0], ['c']) ∧
      decompress .oneFirst
        { treeShape := [1, 0, 0, 0], treeLeaves := ['a', 'b', 'c'], messageBits := [0, 1] }
        = .ok ['b', 'a']) :=
  ⟨⟨rfl, rfl⟩, ⟨rfl, rfl⟩⟩

/-- C16, as the code behaves: for every encoding tree whose root is an internal
node and every bit sequence, valid or not, `decodeText` never moves to a
non-existent child: from the root and from every internal node the loop ends
with a text, never with a dereference of `nullptr`. -/
theorem decodeText_no_null_dereference (t : EncodingTreeNode) (hroot : t.isLeaf = false)
    (bits : List Bit) :
    (∃ text, decodeText t bits = .ok text) ∧
    decodeText t bits ≠ .error .nullDereference ∧
    (∀ (n : EncodingTreeNode) (p : List Bit) (message : List Char),
      walk t p = some n → n.isLeaf = false →
      decodeTextLoop t n bits message ≠ .error .nullDereference) := by
  obtain ⟨text, _, _, h, _⟩ := decodeText_spec t hroot bits
  refine ⟨⟨text, h⟩, ?_, fun n p message hw hn => ?_⟩
  · rw [h]
    intro hh
    cases hh
  · obtain ⟨text', _, _, h', _⟩ := decodeTextLoop_spec t hroot bits n p message hn hw
    rw [h']
    intro hh
    cases hh

theorem decodeText_no_null_dereference_witness :
    createExampleTree.isLeaf = false ∧
    ((∃ text, decodeText createExampleTree [1, 0, 1, 1] = .ok text) ∧
    decodeText createExampleTree [1, 0, 1, 1] ≠ .error .nullDereference ∧
    (∀ (n : EncodingTreeNode) (p : List Bit) (message : List Char),
      walk createExampleTree p = some n → n.isLeaf = false →
      decodeTextLoop createExampleTree n [1, 0, 1, 1] message ≠ .error .nullDereference)) :=
  ⟨by decide, decodeText_no_null_dereference createExampleTree (by decide) [1, 0, 1, 1]⟩

/-- C16 fails on the code for a single-leaf tree: on the first bit `decodeText`
reads the `zero` field of the leaf, which is `nullptr`, and dereferences it. -/
theorem decodeText_leaf_counterexample :
    (leaf 'a').zero? = none ∧ decodeText (leaf 'a') [0] = .error .nullDereference :=
  ⟨rfl, rfl⟩

/-- C17: for every text with at least two distinct characters, the characters at
the leaves of `buildHuffmanTree(text)` are exactly the distinct characters of
the text, each at exactly one leaf; the tree has as many leaves as the text has
distinct characters, and at least two. -/
theorem buildHuffmanTree_leaves (text : List Char) (h : 2 ≤ distinctCount text) :
    ∃ tree, buildHuffmanTree text = .ok tree ∧
      (leafChars tree).Perm text.dedup ∧ (leafChars tree).Nodup ∧
      (∀ c, c ∈ leafChars tree ↔ c ∈ text) ∧
      (∀ c ∈ text, (leafChars tree).count c = 1) ∧
      (leafChars tree).length = distinctCount text ∧ 2 ≤ (leafChars tree).length := by
  obtain ⟨t, ht, _, hp⟩ := buildHuffmanTree_ok text h
  have hpd := hp.trans (keys_countOccurrences_perm text)
  obtain ⟨_, hn, hmem⟩ := leafChars_buildHuffmanTree text t ht h
  refine ⟨t, ht, hpd, hn, hmem, fun c hc => ?_, hpd.length_eq, ?_⟩
  · exact List.count_eq_one_of_mem hn ((hmem c).2 hc)
  · rw [hpd.length_eq]
    exact h

theorem buildHuffmanTree_leaves_witness :
    2 ≤ distinctCount "STREETTEST".toList ∧
    ∃ tree, buildHuffmanTree "STREETTEST".toList = .ok tree ∧
      (leafChars tree).Perm "STREETTEST".toList.dedup ∧ (leafChars tree).Nodup ∧
      (∀ c, c ∈ leafChars tree ↔ c ∈ "STREETTEST".toList) ∧
      (∀ c ∈ "STREETTEST".toList, (leafChars tree).count c = 1) ∧
      (leafChars tree).length = distinctCount "STREETTEST".toList ∧
      2 ≤ (leafChars tree).length :=
  ⟨by decide, buildHuffmanTree_leaves "STREETTEST".toList (by decide)⟩

/-- C19, evaluated on the code: on the queues (shape of `t` followed by `s`,
leaves of `t` followed by `l`) `unflattenTree` consumes exactly the
serialisation of one tree and leaves the two queues holding exactly `s` and
`l`, in either evaluation order of the constructor arguments.  The tree it
returns is `t` when the first argument is evaluated first and the mirror image
of `t` when the second is evaluated first (as g++ does): the shape `[1,0,0]`
and leaves `['a','b']` of internal('a', 'b') followed by `[1]` and `['z']` give
internal('b', 'a'), `[1]` and `['z']`. -/
theorem unflattenTree_frame_order :
    (∀ (t : EncodingTreeNode) (s : List Bit) (l : List Char),
      unflattenTree .zeroFirst ((flattenTree (some t) [] []).1 ++ s)
        ((flattenTree (some t) [] []).2 ++ l) = .ok (t, s, l)) ∧
    (∀ (t : EncodingTreeNode) (s : List Bit) (l : List Char),
      unflattenTree .oneFirst ((flattenTree (some t) [] []).1 ++ s)
        ((flattenTree (some t) [] []).2 ++ l) = .ok (mirror t, s, l)) ∧
    unflattenTree .oneFirst ([1, 0, 0] ++ [1]) (['a', 'b'] ++ ['z'])
      = .ok (node (leaf 'b') (leaf 'a'), [1], ['z']) := by
  refine ⟨fun t s l => ?_, fun t s l => ?_, rfl⟩
  · rw [flattenTree_some_nil]
    exact unflattenTree_flatten t s l
  · rw [flattenTree_some_nil]
    exact unflattenTree_flatten_oneFirst t s l

/-- C20: `decodeText` drops an incomplete trailing code without error: for every
tree `t` with an internal root and pairwise distinct leaf characters, every
text `w` over the leaf characters and every `p` that is a proper prefix of the
code of some character `c` (non-empty or not), `decodeText(t, encodeText(t, w)
followed by p)` returns `w`. -/
theorem decodeText_trailing_prefix (t : EncodingTreeNode) (hroot : t.isLeaf = false)
    (hn : (leafChars t).Nodup) (w : List Char) (hw : ∀ c ∈ w, c ∈ leafChars t)
    (c : Char) (p q : List Bit) (hq : q ≠ [])
    (hcode : Map.find? (sequenceMap (some t) [] []) c = some (p ++ q)) :
    decodeText t (encodeText (some t) w ++ p) = .ok w := by
  have hwalk := find?_sequenceMap_walk t hn c (p ++ q) hcode
  rw [decodeText_encodeText_append t hroot hn w hw p]
  exact decodeTextLoop_partial t p t w hroot (walk_partial_code t p q c hq hwalk)

theorem decodeText_trailing_prefix_witness :
    createExampleTree.isLeaf = false ∧ (leafChars createExampleTree).Nodup ∧
    (∀ c ∈ "SET".toList, c ∈ leafChars createExampleTree) ∧
    ([1, 0] : List Bit) ≠ [] ∧ ([1] : List Bit) ≠ [] ∧
    Map.find? (sequenceMap (some createExampleTree) [] []) 'S' = some ([1, 0] ++ [1]) ∧
    decodeText createExampleTree (encodeText (some createExampleTree) "SET".toList ++ [1, 0])
      = .ok "SET".toList :=
  ⟨by decide, by decide, by decide, by decide, by decide, by decide,
    decodeText_trailing_prefix createExampleTree (by decide) (by decide) "SET".toList (by decide)
      'S' [1, 0] [1] (by decide) (by decide)⟩

/-- C21: `encodeText` silently skips the characters the tree does not cover: for
every encoding tree `t` and every text, `encodeText(t, text)` is, without any
error, the bit sequence `encodeText(t, text')`, where `text'` is the text with
every character that is at no leaf of `t` removed.  On the reference tree
"SEXT" and "XSXEXTX" both encode as "SET". -/
theorem encodeText_skips_uncovered (t : EncodingTreeNode) (text : List Char) :
    encodeText (some t) text =
      encodeText (some t) (text.filter (fun c => decide (c ∈ leafChars t))) ∧
    encodeText (some createExampleTree) "XSXEXTX".toList =
      encodeText (some createExampleTree) "SET".toList ∧
    "XSXEXTX".toList.filter (fun c => decide (c ∈ leafChars createExampleTree)) = "SET".toList := by
  refine ⟨?_, by decide, by decide⟩
  induction text with
  | nil => rfl
  | cons c text ih =>
    rw [show c :: text = [c] ++ text from rfl, encodeText_append, ih]
    by_cases hc : c ∈ leafChars t
    · rw [List.filter_append, ← encodeText_append]
      simp [hc]
    · have h : encodeText (some t) [c] = [] := by
        simp [encodeText_eq, get_sequenceMap_of_not_mem t c hc]
      rw [h, List.filter_append]
      simp [hc]

end Huffman
